import Mathlib



/-!
# Verification of the ImageRenamer core (`renamer.py`)

A shallow embedding of the age-labelling, per-date name allocation,
rename-log and undo/replay logic of `src/renamer.py`, together with
theorems settling the frozen claims about it.

Modelling conventions:
* Python `datetime.date` values are `Date` records (year/month/day as `Nat`);
  `date` subtraction is modelled by the proleptic-Gregorian ordinal
  (`Date.toOrdinal`), exactly Python's `date.toordinal`.
* Python integers are `Int`/`Nat`; `f"{n:02d}"`-style formatting is modelled
  by an explicit decimal renderer (`renderNat`) plus zero left-padding.
* The target directory is a flat finite map from filename to a file identity
  (`Fs`), an association list.  `os.rename` replace semantics are modelled by
  `Fs.rename`.  The log file `rename_log.csv` is kept alongside as an
  `Option (List String)` of its lines (`none` = file absent); scheme-generated
  names always end in an allowed image extension and therefore never collide
  with the log's own filename.
* Capture-date resolution (EXIF or mtime fallback) is an external collaborator:
  it is a parameter `resolve : Nat → Date` indexed by file identity (EXIF data
  and mtime travel with the file across renames).
* `datetime.now().isoformat()` timestamps are a parameter `ts : Nat → String`
  indexed by the running count of rename attempts.
* Per-file rename failures (the `try/except` around `img.rename`) are an
  oracle `oks : Nat → Bool`, likewise indexed by rename attempts.
-/

/-! ## Decimal formatting (Python `f"{n:0Nd}"`) -/

/-- The decimal digit characters; total on `Nat` (only `d < 10` is used). -/
def decChar (d : Nat) : Char :=
  match d with
  | 0 => '0' | 1 => '1' | 2 => '2' | 3 => '3' | 4 => '4'
  | 5 => '5' | 6 => '6' | 7 => '7' | 8 => '8' | 9 => '9'
  | _ => '0'

/-- Fuelled most-significant-first decimal rendering; `renderAux fuel n` is
the digit list of `n` whenever `n ≤ fuel` (and `[]` for `n = 0`). -/
def renderAux : Nat → Nat → List Char
  | 0, _ => []
  | fuel + 1, n => if n = 0 then [] else renderAux fuel (n / 10) ++ [decChar (n % 10)]

/-- Decimal digits of `n`, most significant first (`[]` for `0`). -/
def renderNat (n : Nat) : List Char := renderAux n n

/-- Left-pad a character list with `'0'` to width `w` (Python zero padding). -/
def padLeft (w : Nat) (cs : List Char) : List Char :=
  List.replicate (w - cs.length) '0' ++ cs

/-- Python `f"{n:02d}"` for a natural number. -/
def pad2N (n : Nat) : String := String.mk (padLeft 2 (renderNat n))

/-- Python `f"{n:03d}"` for a natural number. -/
def pad3N (n : Nat) : String := String.mk (padLeft 3 (renderNat n))

/-- Python `f"{n:04d}"` for a natural number. -/
def pad4N (n : Nat) : String := String.mk (padLeft 4 (renderNat n))

/-- Python `f"{n:02d}"` for an `int` (the sign counts towards the width). -/
def pad2I (n : Int) : String :=
  if n < 0 then String.mk ('-' :: padLeft 1 (renderNat n.natAbs))
  else pad2N n.toNat

/-! ## Dates (`datetime.date`) -/

/-- A calendar date as Python's `datetime.date` (validity is a separate
predicate, `WFDate`). -/
structure Date where
  year : Nat
  month : Nat
  day : Nat
deriving DecidableEq, Repr

/-- Python `date < date` (lexicographic on year, month, day — equivalent to
ordinal comparison on valid dates, and exactly how `date` compares). -/
def Date.ltB (a b : Date) : Bool :=
  a.year < b.year ||
    (a.year = b.year && (a.month < b.month ||
      (a.month = b.month && a.day < b.day)))

/-- Nonstrict counterpart of `Date.ltB`, used to sort bucket keys. -/
def Date.leB (a b : Date) : Bool := !(Date.ltB b a)

/-- Gregorian leap-year test, as in Python's `calendar.isleap`. -/
def isLeap (y : Nat) : Bool := (y % 4 = 0 && y % 100 ≠ 0) || y % 400 = 0

/-- Days in a month of year `y` (0 for out-of-range months). -/
def daysInMonth (y m : Nat) : Nat :=
  match m with
  | 1 => 31 | 3 => 31 | 5 => 31 | 7 => 31 | 8 => 31 | 10 => 31 | 12 => 31
  | 4 => 30 | 6 => 30 | 9 => 30 | 11 => 30
  | 2 => if isLeap y then 29 else 28
  | _ => 0

/-- Days strictly before month `m` in a non-leap year. -/
def cumDays (m : Nat) : Nat :=
  match m with
  | 1 => 0 | 2 => 31 | 3 => 59 | 4 => 90 | 5 => 120 | 6 => 151
  | 7 => 181 | 8 => 212 | 9 => 243 | 10 => 273 | 11 => 304 | 12 => 334
  | _ => 0

/-- Days strictly before month `m` of year `y`. -/
def daysBeforeMonth (y m : Nat) : Nat :=
  cumDays m + (if 2 < m ∧ isLeap y then 1 else 0)

/-- Days strictly before January 1 of year `y` in the proleptic Gregorian
calendar (Python's `date.toordinal` building block). -/
def daysBeforeYear (y : Nat) : Nat :=
  365 * (y - 1) + (y - 1) / 4 - (y - 1) / 100 + (y - 1) / 400

/-- Python `date.toordinal`: day 1 is 0001-01-01. -/
def Date.toOrdinal (d : Date) : Nat :=
  daysBeforeYear d.year + daysBeforeMonth d.year d.month + d.day

/-- Valid (constructible) `datetime.date` values. -/
def WFDate (d : Date) : Prop :=
  1 ≤ d.year ∧ d.year ≤ 9999 ∧ 1 ≤ d.month ∧ d.month ≤ 12 ∧
    1 ≤ d.day ∧ d.day ≤ daysInMonth d.year d.month

instance (d : Date) : Decidable (WFDate d) := by
  unfold WFDate; infer_instance

/-- Python `(photo - birth).days` as an integer. -/
def dayDiff (birth photo : Date) : Int :=
  (photo.toOrdinal : Int) - (birth.toOrdinal : Int)

/-- `DAY_MONTH_THRESHOLD` from `renamer.py`. -/
def DAY_MONTH_THRESHOLD : Int := 28

/-- `calculate_age_full` from `renamer.py` (lines 93–112), verbatim:
`"01days"` for photos before birth; day count (floored at 1) below the
28-day threshold; otherwise calendar months, or months÷12 years from 12
months up, each zero-padded to two digits. -/
def calculate_age_full (birth photo : Date) : String :=
  if Date.ltB photo birth then "01days"
  else
    let days_diff : Int := dayDiff birth photo
    if days_diff < DAY_MONTH_THRESHOLD then
      pad2I (max days_diff 1) ++ "days"
    else
      let months0 : Int :=
        ((photo.year : Int) - (birth.year : Int)) * 12 +
          ((photo.month : Int) - (birth.month : Int))
      let months : Int := if photo.day < birth.day then months0 - 1 else months0
      if months < 12 then pad2I months ++ "months"
      else pad2I (months / 12) ++ "years"

/-! ## Birth-date parsing (`datetime.strptime(birth, "%m-%d-%Y")`) -/

/-- ASCII decimal digit test. -/
def isDigitCh (c : Char) : Bool := '0' ≤ c && c ≤ '9'

/-- Numeric value of a digit list, most significant first. -/
def digitsVal (cs : List Char) : Nat :=
  cs.foldl (fun a c => 10 * a + (c.toNat - 48)) 0

/-- A token accepted by `strptime`'s `%m` directive followed by a literal:
one digit `1–9`, or two digits with value `01`–`12`. -/
def monthTok (cs : List Char) : Bool :=
  cs.all isDigitCh &&
    ((cs.length = 1 && 1 ≤ digitsVal cs) ||
      (cs.length = 2 && 1 ≤ digitsVal cs && digitsVal cs ≤ 12))

/-- A token accepted by `%d` followed by a literal: one digit `1–9`, or two
digits with value `01`–`31`. -/
def dayTok (cs : List Char) : Bool :=
  cs.all isDigitCh &&
    ((cs.length = 1 && 1 ≤ digitsVal cs) ||
      (cs.length = 2 && 1 ≤ digitsVal cs && digitsVal cs ≤ 31))

/-- A token accepted by `%Y`: exactly four digits. -/
def yearTok (cs : List Char) : Bool := cs.all isDigitCh && cs.length = 4

/-- Split a character list at every occurrence of `sep` (Python
`str.split(sep)` for a single-character separator). -/
def splitChar (sep : Char) : List Char → List (List Char)
  | [] => [[]]
  | c :: cs =>
    if c = sep then [] :: splitChar sep cs
    else
      match splitChar sep cs with
      | [] => [[c]]
      | p :: ps => (c :: p) :: ps

/-- `datetime.strptime(s, "%m-%d-%Y").date()` wrapped in the source's
`try/except ValueError`: `none` exactly when the source prints the
format error and returns `False`.  The directive regexes are matched
exactly (full match, then `date` constructor validity). -/
def parseBirth (s : String) : Option Date :=
  match splitChar '-' s.data with
  | [ms, ds, ys] =>
    if monthTok ms && dayTok ds && yearTok ys then
      let m := digitsVal ms
      let d := digitsVal ds
      let y := digitsVal ys
      if 1 ≤ y ∧ d ≤ daysInMonth y m then some ⟨y, m, d⟩ else none
    else none
  | _ => none

/-! ## Small string helpers used by the renamer -/

/-- ASCII lower-casing of one character (model of `str.lower` on the
extension and filename characters the tool produces). -/
def lowerCh (c : Char) : Char :=
  match c with
  | 'A' => 'a' | 'B' => 'b' | 'C' => 'c' | 'D' => 'd' | 'E' => 'e' | 'F' => 'f'
  | 'G' => 'g' | 'H' => 'h' | 'I' => 'i' | 'J' => 'j' | 'K' => 'k' | 'L' => 'l'
  | 'M' => 'm' | 'N' => 'n' | 'O' => 'o' | 'P' => 'p' | 'Q' => 'q' | 'R' => 'r'
  | 'S' => 's' | 'T' => 't' | 'U' => 'u' | 'V' => 'v' | 'W' => 'w' | 'X' => 'x'
  | 'Y' => 'y' | 'Z' => 'z'
  | _ => c

/-- Python `s.lower()` (ASCII model). -/
def lowerStr (s : String) : String := String.mk (s.data.map lowerCh)

/-- Python `name.replace(' ', '_')`. -/
def underscoreName (s : String) : String :=
  String.mk (s.data.map fun c => if c = ' ' then '_' else c)

/-- Index of the last occurrence of `'.'` in `cs`, if any. -/
def lastDotIdx (cs : List Char) : Option Nat :=
  (cs.reverse.findIdx? (· = '.')).map (fun i => cs.length - 1 - i)

/-- `pathlib.Path(name).suffix`: the substring from the last dot, unless the
dot is the first or last character. -/
def pySuffix (name : String) : String :=
  match lastDotIdx name.data with
  | none => ""
  | some i =>
    if 0 < i ∧ i < name.data.length - 1 then String.mk (name.data.drop i) else ""

/-- The `ALLOWED_EXTS` set from `renamer.py`. -/
def ALLOWED_EXTS : List String :=
  [".jpg", ".jpeg", ".png", ".tiff", ".heic", ".bmp", ".nef", ".dng"]

/-- Strict code-point comparison of strings, as Python compares `Path`s of a
common directory. -/
def strLt : List Char → List Char → Bool
  | [], [] => false
  | [], _ :: _ => true
  | _ :: _, [] => false
  | a :: as, b :: bs =>
    if a.toNat < b.toNat then true
    else if b.toNat < a.toNat then false
    else strLt as bs

/-- Nonstrict string comparison for sorting. -/
def strLe (a b : String) : Bool := !(strLt b.data a.data)

/-- Insert into a sorted list (helper for `sortBy`). -/
def insertLe {α : Type} (le : α → α → Bool) (a : α) : List α → List α
  | [] => [a]
  | b :: bs => if le a b then a :: b :: bs else b :: insertLe le a bs

/-- Insertion sort; models Python `sorted` (our keys are pairwise distinct,
so stability is immaterial). -/
def sortBy {α : Type} (le : α → α → Bool) : List α → List α
  | [] => []
  | a :: as => insertLe le a (sortBy le as)

/-! ## Log-line splitting (Python `str.split`) -/

/-- Split off the part of `cs` before its first comma: Python's first step of
`line.split(',', k)`. -/
def breakComma : List Char → Option (List Char × List Char)
  | [] => none
  | c :: cs =>
    if c = ',' then some ([], cs)
    else (breakComma cs).map (fun p => (c :: p.1, p.2))

/-- Python `_, old, new = line.split(',', 2)`: `none` when the line has fewer
than two commas (where the source raises `ValueError`). -/
def split2 (line : String) : Option (String × String × String) :=
  match breakComma line.data with
  | none => none
  | some (a, rest) =>
    match breakComma rest with
    | none => none
    | some (b, c) => some (String.mk a, String.mk b, String.mk c)

/-- Python `line.split(',')` (no limit). -/
def splitComma (s : String) : List String :=
  (splitChar ',' s.data).map String.mk

/-- Python whitespace test for `str.strip`. -/
def isPySpace (c : Char) : Bool :=
  c = ' ' || c = '\t' || c = '\n' || c = '\x0d' || c = '\x0b' || c = '\x0c'

/-- Python `line.strip()`. -/
def pyStrip (s : String) : String :=
  String.mk (((s.data.dropWhile isPySpace).reverse.dropWhile isPySpace).reverse)

/-! ## The directory model -/

/-- A flat directory: filenames paired with a file identity.  Well-formed
states have pairwise-distinct names. -/
structure Fs where
  files : List (String × Nat)
deriving DecidableEq, Repr

/-- The names present in the directory. -/
def Fs.names (fs : Fs) : List String := fs.files.map Prod.fst

/-- Python `Path.exists()` for a name of the directory. -/
def Fs.existsFile (fs : Fs) (n : String) : Bool := fs.files.any (fun p => p.1 = n)

/-- Identity of the file currently named `n`. -/
def Fs.idOf (fs : Fs) (n : String) : Option Nat :=
  (fs.files.find? (fun p => p.1 = n)).map Prod.snd

/-- `os.rename old new` on the directory: no-op if `old` is absent or equal to
`new`; otherwise any file at `new` is replaced and the file at `old` takes the
name `new` (POSIX semantics). -/
def Fs.rename (fs : Fs) (old new : String) : Fs :=
  if fs.existsFile old then
    if new = old then fs
    else
      ⟨(fs.files.filter (fun p => p.1 ≠ new)).map
        (fun p => if p.1 = old then (new, p.2) else p)⟩
  else fs

/-! ## Events, run state, and the task runner (`process_task`, lines 151–232) -/

/-- Observable per-file outcomes of the allocation loop.  `renamed`/`failed`
record the probe-resolved ID `t` and the rename-attempt index `k` (used to
index timestamps and the failure oracle). -/
inductive Ev where
  | skip (old : String)
  | planned (old new : String) (t : Nat)
  | renamed (old new : String) (t k : Nat)
  | failed (old new : String) (t k : Nat)
deriving DecidableEq, Repr

/-- Running state of one task: directory, log file, emitted events, and the
count of rename attempts so far. -/
structure St where
  fs : Fs
  log : Option (List String)
  evs : List Ev
  k : Nat
deriving DecidableEq, Repr

/-- The header line written when the log file is created. -/
def logHeader : String := "timestamp,old_filename,new_filename"

/-- Append one line to the log file; `open(log_file, "a")` creates the file
when absent. -/
def appendLine (log : Option (List String)) (l : String) : Option (List String) :=
  match log with
  | none => some [l]
  | some ls => some (ls ++ [l])

/-- The log line written after a successful rename (line 227):
`f"{timestamp},{old_name},{new_name}"`. -/
def mkLogLine (tsv old new : String) : String := tsv ++ "," ++ old ++ "," ++ new

/-- The candidate-name prefix fixed for one file of one bucket:
`f"{name.replace(' ','_')}_{date_str}_{age}_"`. -/
def schemePre (name : String) (dateStr age : String) : String :=
  underscoreName name ++ "_" ++ dateStr ++ "_" ++ age ++ "_"

/-- A candidate name `pre + f"{t:03d}" + ext` (lines 199–205). -/
def mkCand (pre : String) (t : Nat) (ext : String) : String := pre ++ pad3N t ++ ext

/-- `dt.strftime('%Y%m%d')`. -/
def fmtYYYYMMDD (d : Date) : String := pad4N d.year ++ pad2N d.month ++ pad2N d.day

/-- The `while` guard of the collision loop (line 209):
`new_p.exists() and new_p.name != old_name`. -/
def probeCont (fs : Fs) (old : String) (pre ext : String) (t : Nat) : Bool :=
  fs.existsFile (mkCand pre t ext) && !(mkCand pre t ext = old)

/-- The collision `while` loop (lines 208–219): starting from `t`, advance
while a file with the candidate name exists and is not the file being renamed.
Fuel bounds the search; fuel `|fs| + 1` always suffices (`probe_exit`). -/
def probe (fs : Fs) (old : String) (pre ext : String) : Nat → Nat → Nat
  | t, 0 => t
  | t, fuel + 1 =>
    if probeCont fs old pre ext t then probe fs old pre ext (t + 1) fuel
    else t

/-- The inner per-bucket loop of `process_task` (lines 189–230), one date
bucket `dt` with its shared counter.  Returns the final state and counter.
Note the source's `continue` on an already-renamed file bypasses
`counter += 1`. -/
def bucketLoop (name : String) (bd dt : Date) (dryRun : Bool) (already : List String)
    (ts : Nat → String) (oks : Nat → Bool) :
    List String → St → Nat → St × Nat
  | [], st, counter => (st, counter)
  | img :: rest, st, counter =>
    if already.contains img then
      bucketLoop name bd dt dryRun already ts oks rest
        { st with evs := st.evs ++ [Ev.skip img] } counter
    else
      let age := calculate_age_full bd dt
      let dateStr := fmtYYYYMMDD dt
      let ext := lowerStr (pySuffix img)
      let pre := schemePre name dateStr age
      let t := probe st.fs img pre ext counter (st.fs.files.length + 1)
      let newName := mkCand pre t ext
      if dryRun then
        bucketLoop name bd dt dryRun already ts oks rest
          { st with evs := st.evs ++ [Ev.planned img newName t] } (counter + 1)
      else if oks st.k then
        bucketLoop name bd dt dryRun already ts oks rest
          { fs := st.fs.rename img newName,
            log := appendLine st.log (mkLogLine (ts st.k) img newName),
            evs := st.evs ++ [Ev.renamed img newName t st.k],
            k := st.k + 1 } (counter + 1)
      else
        bucketLoop name bd dt dryRun already ts oks rest
          { st with evs := st.evs ++ [Ev.failed img newName t st.k], k := st.k + 1 }
          (counter + 1)

/-- `gather_images` (lines 114–123) on the flat directory model: files whose
lower-cased suffix is in the allow-list, sorted by name. -/
def gatherImages (fs : Fs) : List String :=
  sortBy strLe (fs.names.filter (fun n => ALLOWED_EXTS.contains (lowerStr (pySuffix n))))

/-- Lines 168–176: the set of `old_filename` values of well-formed log lines
(three comma-separated fields after stripping). -/
def alreadyRenamed (log : Option (List String)) : List String :=
  match log with
  | none => []
  | some lines =>
    (lines.drop 1).foldl (fun acc line =>
      match splitComma (pyStrip line) with
      | [_, old, _] => acc ++ [old]
      | _ => acc) []

/-- Capture date of the file currently named `n` (EXIF/mtime resolution is a
property of the file, not of its name). -/
def resolveName (resolve : Nat → Date) (fs : Fs) (n : String) : Date :=
  resolve ((fs.idOf n).getD 0)

/-- The files of the bucket keyed `dt` (lines 182–186), in the sorted order
the inner loop visits them. -/
def bucketFiles (resolve : Nat → Date) (fs : Fs) (images : List String) (dt : Date) :
    List String :=
  images.filter (fun n => resolveName resolve fs n = dt)

/-- The sorted bucket keys of `sorted(groups)` (line 188). -/
def bucketDates (resolve : Nat → Date) (fs : Fs) (images : List String) : List Date :=
  sortBy Date.leB ((images.map (resolveName resolve fs)).dedup)

/-- Line 178–179: create the log file with its header when absent and not in
dry-run mode. -/
def logCreate (log0 : Option (List String)) (dryRun : Bool) : Option (List String) :=
  match log0, dryRun with
  | none, false => some [logHeader]
  | _, _ => log0

/-- `process_task` (lines 151–232) on the flat directory model.  Returns the
source's boolean result and the final state.  `resolve` is the capture-date
collaborator, `ts` the timestamp source, `oks` the per-attempt rename-failure
oracle. -/
def processTask (name birth : String) (dryRun : Bool) (resolve : Nat → Date)
    (ts : Nat → String) (oks : Nat → Bool) (fs0 : Fs) (log0 : Option (List String)) :
    Bool × St :=
  match parseBirth birth with
  | none => (false, ⟨fs0, log0, [], 0⟩)
  | some bd =>
    let images := gatherImages fs0
    if images.isEmpty then (false, ⟨fs0, log0, [], 0⟩)
    else
      let already := alreadyRenamed log0
      let log1 := logCreate log0 dryRun
      let st := (bucketDates resolve fs0 images).foldl
        (fun st dt =>
          (bucketLoop name bd dt dryRun already ts oks
            (bucketFiles resolve fs0 images dt) st 1).1)
        ⟨fs0, log1, [], 0⟩
      (true, st)

/-! ## Undo (`undo_renames`, lines 125–149) -/

/-- The replay loop (lines 135–144) over an already-reversed line list:
parse each line with `split(',', 2)` (a parse failure raises, aborting the
replay with the filesystem as reached — `.error`); revert `new → old`
exactly when `new` exists and `old` does not; an individual rename failure
(oracle `false`) is reported and skipped. -/
def replay (uoks : Nat → Bool) : List String → Fs → Nat → Except Fs (Fs × Nat)
  | [], fs, k => Except.ok (fs, k)
  | line :: rest, fs, k =>
    match split2 line with
    | none => Except.error fs
    | some (_, old, new) =>
      if fs.existsFile new && !fs.existsFile old then
        if uoks k then replay uoks rest (fs.rename new old) (k + 1)
        else replay uoks rest fs (k + 1)
      else replay uoks rest fs k

/-- `undo_renames` (lines 125–149): no-op when the log is absent; prompt
unless forced (`resp` is the interactive answer); replay all logged entries
most-recent-first; delete the log after a completed replay (an uncaught parse
error leaves it in place). -/
def undo_renames (fs : Fs) (log : Option (List String)) (force : Bool)
    (resp : String) (uoks : Nat → Bool) : Fs × Option (List String) :=
  match log with
  | none => (fs, none)
  | some lines =>
    if !force && lowerStr resp ≠ "y" then (fs, some lines)
    else
      match replay uoks (lines.drop 1).reverse fs 0 with
      | Except.ok (fs', _) => (fs', none)
      | Except.error fs' => (fs', some lines)

/-! ## Observation helpers over event lists -/

/-- The `(old, new)` pairs of the successful renames among `evs`. -/
def renPairs (evs : List Ev) : List (String × String) :=
  evs.filterMap (fun e =>
    match e with
    | Ev.renamed old new _ _ => some (old, new)
    | _ => none)

/-- The final names of the successful renames among `evs`. -/
def newsOf (evs : List Ev) : List String := (renPairs evs).map Prod.snd

/-- The `[SKIP]`-ped original names among `evs`. -/
def skipsOf (evs : List Ev) : List String :=
  evs.filterMap (fun e => match e with | Ev.skip old => some old | _ => none)

/-- The numeric IDs embedded in the allocator's outcomes, in order (dry-run
plans and failed attempts included — the allocator produced those names too). -/
def idsOf (evs : List Ev) : List Nat :=
  evs.filterMap (fun e =>
    match e with
    | Ev.renamed _ _ t _ => some t
    | Ev.failed _ _ t _ => some t
    | Ev.planned _ _ t => some t
    | Ev.skip _ => none)

/-- The log lines produced by the successful renames among `evs`. -/
def renLines (ts : Nat → String) (evs : List Ev) : List String :=
  evs.filterMap (fun e =>
    match e with
    | Ev.renamed old new _ k => some (mkLogLine (ts k) old new)
    | _ => none)

/-- Apply a list of renames in order. -/
def applySeq (prs : List (String × String)) (fs : Fs) : Fs :=
  prs.foldl (fun fs p => fs.rename p.1 p.2) fs

/-- Every rename of the sequence was performed on a state where its source
existed and its target was free (or the rename was a self-rename) — exactly
what the collision loop guarantees for the renames `process_task` performs. -/
def ValidSeq : Fs → List (String × String) → Prop
  | _, [] => True
  | fs, (old, new) :: prs =>
    fs.existsFile old = true ∧ (fs.existsFile new = false ∨ new = old) ∧
      ValidSeq (fs.rename old new) prs

/-- The undo guard-and-revert step, on parsed entries. -/
def undoStep (fs : Fs) (pr : String × String) : Fs :=
  if fs.existsFile pr.2 && !fs.existsFile pr.1 then fs.rename pr.2 pr.1 else fs

/-- Replay (all renames succeeding) over parsed entries, in list order. -/
def replayFold (prs : List (String × String)) (fs : Fs) : Fs :=
  prs.foldl undoStep fs

/-- `true` iff the list is monotonically non-decreasing. -/
def nondecr : List Nat → Bool
  | [] => true
  | [_] => true
  | a :: b :: rest => a ≤ b && nondecr (b :: rest)

def tsT : Nat → String := fun k => "T" ++ pad2N k

def okAll : Nat → Bool := fun _ => true

def resMar : Nat → Date := fun _ => ⟨2023, 3, 1⟩

def c5run : St × Nat :=
  bucketLoop "N" ⟨2023,1,1⟩ ⟨2023,3,1⟩ false ["a.jpg"] tsT okAll
    ["a.jpg", "b.jpg"] ⟨⟨[("a.jpg", 0), ("b.jpg", 1)]⟩, some [logHeader], [], 0⟩ 1

def c4run : St × Nat :=
  bucketLoop "N" ⟨2023,1,1⟩ ⟨2023,3,1⟩ false [] tsT okAll
    ["A.jpg", "N_20230301_02months_002.jpg"]
    ⟨⟨[("A.jpg", 0), ("N_20230301_02months_002.jpg", 1),
       ("N_20230301_02months_001.jpg", 2)]⟩, some [logHeader], [], 0⟩ 1

def c6run1 : Bool × St :=
  processTask "N" "01-01-2023" false resMar tsT okAll ⟨[("a.jpg", 0)]⟩ none

def c6run2 : Bool × St :=
  processTask "N" "01-01-2023" false resMar tsT okAll c6run1.2.fs c6run1.2.log

def c3run : Bool × St :=
  processTask "N" "01-01-2023" false resMar tsT okAll ⟨[("a.jpg", 0)]⟩
    (some [logHeader, "t0,old.jpg,a.jpg"])

def c3undo : Fs × Option (List String) :=
  undo_renames c3run.2.fs c3run.2.log true "" okAll

def c9run : Bool × St :=
  processTask "N" "01-01-2023" false resMar tsT okAll ⟨[("a,b.jpg", 0)]⟩ none

def appendLines (log : Option (List String)) (ls : List String) : Option (List String) :=
  ls.foldl appendLine log

def attempts (evs : List Ev) : Nat :=
  (evs.filter (fun e => match e with
    | Ev.renamed _ _ _ _ => true
    | Ev.failed _ _ _ _ => true
    | _ => false)).length

def allocOut (name : String) (bd dt : Date) (dryRun : Bool) (already : List String)
    (oks : Nat → Bool) : List String → Fs → Nat → Nat → List Ev
  | [], _, _, _ => []
  | img :: rest, fs, k, counter =>
    if already.contains img then
      Ev.skip img :: allocOut name bd dt dryRun already oks rest fs k counter
    else
      let age := calculate_age_full bd dt
      let dateStr := fmtYYYYMMDD dt
      let ext := lowerStr (pySuffix img)
      let pre := schemePre name dateStr age
      let t := probe fs img pre ext counter (fs.files.length + 1)
      let newName := mkCand pre t ext
      if dryRun then
        Ev.planned img newName t ::
          allocOut name bd dt dryRun already oks rest fs k (counter + 1)
      else if oks k then
        Ev.renamed img newName t k ::
          allocOut name bd dt dryRun already oks rest (fs.rename img newName) (k + 1) (counter + 1)
      else
        Ev.failed img newName t k ::
          allocOut name bd dt dryRun already oks rest fs (k + 1) (counter + 1)

/-- Concatenation of the per-key filters of `l` over the key list `ks`. -/
def keyJoin {α β : Type} [DecidableEq β] (key : α → β) (l : List α) (ks : List β) :
    List α :=
  ks.foldr (fun k acc => l.filter (fun x => key x = k) ++ acc) []

/-- The full event stream of one task: the per-bucket outcome streams in
bucket order, threading the directory and the rename-attempt counter. -/
def runBuckets (name : String) (bd : Date) (dryRun : Bool) (already : List String)
    (oks : Nat → Bool) (bf : Date → List String) : List Date → Fs → Nat → List Ev
  | [], _, _ => []
  | dt :: dts, fs, k =>
    let d := allocOut name bd dt dryRun already oks (bf dt) fs k 1
    d ++ runBuckets name bd dryRun already oks bf dts
      (applySeq (renPairs d) fs) (k + attempts d)

/-- The event stream `processTask` produces on a parsable birth date and a
nonempty image list. -/
def taskEvs (name : String) (bd : Date) (dryRun : Bool) (resolve : Nat → Date)
    (oks : Nat → Bool) (fs0 : Fs) (log0 : Option (List String)) : List Ev :=
  runBuckets name bd dryRun (alreadyRenamed log0) oks
    (bucketFiles resolve fs0 (gatherImages fs0))
    (bucketDates resolve fs0 (gatherImages fs0)) fs0 0

/-- Concatenation of the images of a list of buckets. -/
def catMap {α β : Type} (f : α → List β) (l : List α) : List β :=
  l.foldr (fun a acc => f a ++ acc) []

/-- Parse a list of log lines with `split(',', 2)`, keeping the
`(old, new)` pairs; `none` if any line fails to parse. -/
def parsePairs : List String → Option (List (String × String))
  | [] => some []
  | l :: ls =>
    match split2 l with
    | none => none
    | some (_, o, n) => (parsePairs ls).map (fun ps => (o, n) :: ps)

/-- The replay of parsed entries with the per-entry failure oracle: the guard
decides whether a revert is attempted, the oracle whether it succeeds; either
way the remaining entries are still processed. -/
def undoFoldOks (uoks : Nat → Bool) : List (String × String) → Fs → Nat → Fs × Nat
  | [], fs, k => (fs, k)
  | (o, n) :: ps, fs, k =>
    if fs.existsFile n && !fs.existsFile o then
      if uoks k then undoFoldOks uoks ps (fs.rename n o) (k + 1)
      else undoFoldOks uoks ps fs (k + 1)
    else undoFoldOks uoks ps fs k

/-- A `[DRY-RUN]` outcome. -/
def isPlanned (e : Ev) : Bool :=
  match e with
  | Ev.planned _ _ _ => true
  | _ => false

def tsC : Nat → String := fun _ => "T0"

def okNot0 : Nat → Bool := fun k => !(k = 0)

/-! ## Lemmas and claim theorems -/

/-- C1: for well-formed dates, `calculate_age_full` returns `"01days"` when the
photo predates the birth; otherwise, with `days` the exact day difference,
a zero-padded 2-digit `max(days, 1) + "days"` when `days < 28`; otherwise,
with the calendar-month count (decremented when the photo's day-of-month has
not yet reached the birth day), a zero-padded 2-digit month count + `"months"`
below 12 months, else the zero-padded 2-digit `months / 12 + "years"`
(zero-padded 2-digit meaning Python's `%02d`, which widens beyond 99). -/
theorem calculate_age_full_spec (b p : Date) (hb : WFDate b) (hp : WFDate p) :
    (Date.ltB p b = true → calculate_age_full b p = "01days") ∧
    (Date.ltB p b = false →
      (dayDiff b p < 28 →
        calculate_age_full b p = pad2I (max (dayDiff b p) 1) ++ "days") ∧
      (28 ≤ dayDiff b p → ∀ months : Int,
        months = ((p.year : Int) - (b.year : Int)) * 12 +
            ((p.month : Int) - (b.month : Int)) -
            (if p.day < b.day then 1 else 0) →
        (months < 12 → calculate_age_full b p = pad2I months ++ "months") ∧
        (12 ≤ months → calculate_age_full b p = pad2I (months / 12) ++ "years"))) := by
  unfold calculate_age_full DAY_MONTH_THRESHOLD
  refine ⟨fun h => by simp [h], fun h => ⟨fun hd => ?_, fun hd months hm => ?_⟩⟩
  · simp [h, hd]
  · have hnot : ¬ dayDiff b p < 28 := by omega
    by_cases hday : p.day < b.day
    · simp only [h, Bool.false_eq_true, if_false, hnot, hday, if_true]
      constructor <;> intro h12 <;> simp [hm, hday] <;> omega
    · simp only [h, Bool.false_eq_true, if_false, hnot, hday, if_false]
      constructor <;> intro h12 <;> simp [hm, hday] <;> omega

theorem calculate_age_full_spec_witness :
    WFDate ⟨2022,1,1⟩ ∧ WFDate ⟨2024,6,1⟩ ∧
      calculate_age_full ⟨2022,1,1⟩ ⟨2024,6,1⟩ = "02years" := by
  refine ⟨by decide, by decide, ?_⟩
  have h := ((calculate_age_full_spec ⟨2022,1,1⟩ ⟨2024,6,1⟩ (by decide) (by decide)).2
    (by decide)).2 (by decide) 29 (by decide)
  exact (h.2 (by decide)).trans (by decide)

theorem contains_true {l : List String} {a : String} : l.contains a = true ↔ a ∈ l :=
  List.elem_iff

theorem contains_false {l : List String} {a : String} : l.contains a = false ↔ a ∉ l := by
  rw [← Bool.not_eq_true]
  exact not_congr contains_true

/-- C5 (amended): the bucket's shared counter increments by exactly 1 for each
file that is renamed, fails renaming, or is printed in dry-run — but **not**
for files skipped as already renamed: the final counter is the initial counter
plus the number of files not in the already-renamed set. -/
theorem bucket_counter_increments (name : String) (bd dt : Date) (dryRun : Bool)
    (already : List String) (ts : Nat → String) (oks : Nat → Bool)
    (imgs : List String) (st : St) (counter : Nat) :
    (bucketLoop name bd dt dryRun already ts oks imgs st counter).2 =
      counter + (imgs.filter (fun i => !already.contains i)).length := by
  induction imgs generalizing st counter with
  | nil => simp [bucketLoop]
  | cons img rest ih =>
    simp only [bucketLoop]
    by_cases h : already.contains img = true
    · rw [if_pos h, ih, List.filter_cons, if_neg (by rw [h]; simp)]
    · rw [if_neg h]
      have h2 : (!already.contains img) = true := by
        rcases hb : already.contains img with _ | _
        · rfl
        · exact absurd hb h
      split
      · rw [ih, List.filter_cons, h2]
        simp only [if_true, List.length_cons]
        omega
      · split
        · rw [ih, List.filter_cons, h2]
          simp only [if_true, List.length_cons]
          omega
        · rw [ih, List.filter_cons, h2]
          simp only [if_true, List.length_cons]
          omega

/-- C5 counterexample: with `a.jpg` already renamed and `b.jpg` fresh, the
bucket's counter ends at 2, not 3, and `b.jpg` receives ID 001 — the `continue`
for an already-renamed file bypasses `counter += 1`, so skipped files do not
consume an ID slot as the claim states. -/
theorem skip_consumes_no_slot_cex :
    c5run.1.evs = [Ev.skip "a.jpg",
      Ev.renamed "b.jpg" "N_20230301_02months_001.jpg" 1 0] ∧
    c5run.2 = 2 ∧ c5run.2 ≠ 1 + 2 := by decide

/-- C4 counterexample: bucket files `A.jpg` and `N_20230301_02months_002.jpg`
with `N_20230301_02months_001.jpg` on disk from another date bucket: `A.jpg`
probes past IDs 001 and 002 to 003, then the second file exits the collision
loop at its own name with ID 002 — the IDs `[3, 2]` are not monotonically
non-decreasing in filename sort order. -/
theorem alloc_ids_not_monotone_cex :
    idsOf c4run.1.evs = [3, 2] ∧ nondecr (idsOf c4run.1.evs) = false := by decide

/-- C6 counterexample: running the same task twice on `{a.jpg}`, the second
run produces **no** `[SKIP]` line: the file's current name is the first run's
new name, which is not among the log's old names, so the file is re-allocated,
renamed onto itself (the filesystem is unchanged) and a fresh log entry is
appended — contradicting the claim that every file is skipped. -/
theorem second_run_not_skipped_cex :
    skipsOf c6run2.2.evs = [] ∧
    c6run2.2.evs =
      [Ev.renamed "N_20230301_02months_001.jpg" "N_20230301_02months_001.jpg" 1 0] ∧
    c6run2.2.fs = c6run1.2.fs := by decide

/-- C3 counterexample: a directory `{a.jpg}` with a pre-existing log entry
`old.jpg -> a.jpg`; the task completes successfully (its one rename succeeds
and is logged), yet `undo --force` replays the stale entry too and leaves the
originally-named file at `old.jpg`, not `a.jpg` — so undo is not a left
inverse of a successful task for every directory state. -/
theorem undo_preexisting_log_cex :
    c3run.1 = true ∧
    renPairs c3run.2.evs = [("a.jpg", "N_20230301_02months_001.jpg")] ∧
    c3undo.2 = none ∧ c3undo.1.existsFile "a.jpg" = false := by decide

/-- C9 counterexample: the file `a,b.jpg` is eligible and gets renamed; the
appended log line `T00,a,b.jpg,N_20230301_02months_001.jpg` contains three
commas, its naive comma split has four fields, and `split(',', 2)` recovers
`("T00", "a", "b.jpg,...")` — not the written triple. -/
theorem log_line_extra_comma_cex :
    c9run.2.log = some [logHeader, "T00,a,b.jpg,N_20230301_02months_001.jpg"] ∧
    (splitComma "T00,a,b.jpg,N_20230301_02months_001.jpg").length ≠ 3 ∧
    split2 "T00,a,b.jpg,N_20230301_02months_001.jpg" =
      some ("T00", "a", "b.jpg,N_20230301_02months_001.jpg") := by decide

theorem bucketLoop_eq (name : String) (bd dt : Date) (dryRun : Bool)
    (already : List String) (ts : Nat → String) (oks : Nat → Bool)
    (imgs : List String) (st : St) (counter : Nat) :
    (bucketLoop name bd dt dryRun already ts oks imgs st counter).1 =
      { fs := applySeq (renPairs (allocOut name bd dt dryRun already oks imgs st.fs st.k counter)) st.fs,
        log := appendLines st.log (renLines ts (allocOut name bd dt dryRun already oks imgs st.fs st.k counter)),
        evs := st.evs ++ allocOut name bd dt dryRun already oks imgs st.fs st.k counter,
        k := st.k + attempts (allocOut name bd dt dryRun already oks imgs st.fs st.k counter) } := by
  induction imgs generalizing st counter with
  | nil => simp [bucketLoop, allocOut, applySeq, renPairs, renLines, attempts, appendLines]
  | cons img rest ih =>
    simp only [bucketLoop, allocOut]
    by_cases h : already.contains img = true
    · rw [if_pos h, if_pos h, ih]
      simp [renPairs, renLines, attempts, appendLines]
    · rw [if_neg h, if_neg h]
      split
      · rw [ih]
        simp [renPairs, renLines, attempts, appendLines]
      · split
        · rw [ih]
          simp [renPairs, renLines, attempts, appendLines, applySeq, St.mk.injEq]
          omega
        · rw [ih]
          simp [renPairs, renLines, attempts, appendLines, applySeq, St.mk.injEq]
          omega

theorem insertLe_perm {α : Type} (le : α → α → Bool) (a : α) (l : List α) :
    List.Perm (insertLe le a l) (a :: l) := by
  induction l with
  | nil => simp [insertLe]
  | cons b bs ih =>
    simp only [insertLe]
    split
    · exact List.Perm.refl _
    · exact ((ih.cons b).trans (List.Perm.swap a b bs))

theorem sortBy_perm {α : Type} (le : α → α → Bool) (l : List α) :
    List.Perm (sortBy le l) l := by
  induction l with
  | nil => simp [sortBy]
  | cons a as ih => exact (insertLe_perm le a (sortBy le as)).trans (ih.cons a)

theorem keyJoin_congr {α β : Type} [DecidableEq β] (key : α → β) (l₁ l₂ : List α)
    (ks : List β) (h : ∀ k ∈ ks, l₁.filter (fun x => key x = k) = l₂.filter (fun x => key x = k)) :
    keyJoin key l₁ ks = keyJoin key l₂ ks := by
  induction ks with
  | nil => rfl
  | cons k ks ih =>
    simp only [keyJoin, List.foldr_cons] at *
    rw [h k (by simp), ih (fun k' hk' => h k' (by simp [hk']))]

theorem keyJoin_perm {α β : Type} [DecidableEq β] (key : α → β) :
    ∀ (ks : List β) (l : List α), ks.Nodup → (∀ x ∈ l, key x ∈ ks) →
      List.Perm (keyJoin key l ks) l := by
  intro ks
  induction ks with
  | nil =>
    intro l _ hcov
    cases l with
    | nil => exact List.Perm.refl _
    | cons x xs => exact absurd (hcov x (by simp)) (by simp)
  | cons k ks ih =>
    intro l hnd hcov
    have hx : keyJoin key l (k :: ks) =
        l.filter (fun x => key x = k) ++ keyJoin key l ks := rfl
    rw [hx]
    have hcongr : keyJoin key l ks = keyJoin key (l.filter (fun x => !(key x = k))) ks := by
      refine keyJoin_congr key l _ ks (fun k' hk' => ?_)
      rw [List.filter_filter]
      refine (List.filter_congr (fun x _ => ?_)).symm
      have hkk : k' ≠ k := fun he => (List.nodup_cons.mp hnd).1 (he ▸ hk')
      by_cases hxk : key x = k'
      · simp [hxk, hkk]
      · simp [hxk]
    rw [hcongr]
    have hperm2 : List.Perm (keyJoin key (l.filter (fun x => !(key x = k))) ks)
        (l.filter (fun x => !(key x = k))) := by
      refine ih _ (List.nodup_cons.mp hnd).2 (fun x hx2 => ?_)
      have hmem := List.mem_filter.mp hx2
      have := hcov x hmem.1
      simp only [List.mem_cons] at this
      rcases this with h | h
      · simp [h] at hmem
      · exact h
    exact (hperm2.append_left _).trans (List.filter_append_perm _ l)

theorem bucketDates_nodup (resolve : Nat → Date) (fs : Fs) (images : List String) :
    (bucketDates resolve fs images).Nodup :=
  (sortBy_perm Date.leB _).nodup_iff.mpr (List.nodup_dedup _)

theorem mem_bucketDates (resolve : Nat → Date) (fs : Fs) (images : List String)
    (n : String) (h : n ∈ images) :
    resolveName resolve fs n ∈ bucketDates resolve fs images := by
  unfold bucketDates
  rw [(sortBy_perm Date.leB _).mem_iff, List.mem_dedup]
  exact List.mem_map.mpr ⟨n, h, rfl⟩

theorem bucketsJoin_perm (resolve : Nat → Date) (fs : Fs) (images : List String) :
    List.Perm (keyJoin (resolveName resolve fs) images (bucketDates resolve fs images))
      images :=
  keyJoin_perm _ _ _ (bucketDates_nodup resolve fs images)
    (fun x hx => mem_bucketDates resolve fs images x hx)

theorem renPairs_append (a b : List Ev) : renPairs (a ++ b) = renPairs a ++ renPairs b :=
  List.filterMap_append a b _

theorem renLines_append (ts : Nat → String) (a b : List Ev) :
    renLines ts (a ++ b) = renLines ts a ++ renLines ts b :=
  List.filterMap_append a b _

theorem skipsOf_append (a b : List Ev) : skipsOf (a ++ b) = skipsOf a ++ skipsOf b :=
  List.filterMap_append a b _

theorem attempts_append (a b : List Ev) : attempts (a ++ b) = attempts a + attempts b := by
  simp [attempts]

theorem applySeq_append (a b : List (String × String)) (fs : Fs) :
    applySeq (a ++ b) fs = applySeq b (applySeq a fs) :=
  List.foldl_append _ _ _ _

theorem appendLines_append (log : Option (List String)) (a b : List String) :
    appendLines log (a ++ b) = appendLines (appendLines log a) b :=
  List.foldl_append _ _ _ _

theorem foldBuckets_eq (name : String) (bd : Date) (dryRun : Bool)
    (already : List String) (ts : Nat → String) (oks : Nat → Bool)
    (bf : Date → List String) (dts : List Date) (st : St) :
    dts.foldl (fun st dt => (bucketLoop name bd dt dryRun already ts oks (bf dt) st 1).1) st =
      { fs := applySeq (renPairs (runBuckets name bd dryRun already oks bf dts st.fs st.k)) st.fs,
        log := appendLines st.log (renLines ts (runBuckets name bd dryRun already oks bf dts st.fs st.k)),
        evs := st.evs ++ runBuckets name bd dryRun already oks bf dts st.fs st.k,
        k := st.k + attempts (runBuckets name bd dryRun already oks bf dts st.fs st.k) } := by
  induction dts generalizing st with
  | nil => simp [runBuckets, applySeq, renPairs, renLines, attempts, appendLines]
  | cons dt dts ih =>
    rw [List.foldl_cons, bucketLoop_eq, ih]
    simp only [runBuckets, renPairs_append, renLines_append, attempts_append,
      applySeq_append, appendLines_append, List.append_assoc, St.mk.injEq]
    and_intros
    all_goals first | trivial | omega

theorem processTask_eq (name birth : String) (dryRun : Bool) (resolve : Nat → Date)
    (ts : Nat → String) (oks : Nat → Bool) (fs0 : Fs) (log0 : Option (List String))
    (bd : Date) (hp : parseBirth birth = some bd) (hne : gatherImages fs0 ≠ []) :
    processTask name birth dryRun resolve ts oks fs0 log0 =
      (true,
        { fs := applySeq (renPairs (taskEvs name bd dryRun resolve oks fs0 log0)) fs0,
          log := appendLines (logCreate log0 dryRun)
            (renLines ts (taskEvs name bd dryRun resolve oks fs0 log0)),
          evs := taskEvs name bd dryRun resolve oks fs0 log0,
          k := attempts (taskEvs name bd dryRun resolve oks fs0 log0) }) := by
  unfold processTask
  rw [hp]
  have h2 : (gatherImages fs0).isEmpty = false := by
    simpa [List.isEmpty_iff] using hne
  simp only [h2, Bool.false_eq_true, if_false]
  rw [foldBuckets_eq]
  simp [taskEvs]

theorem digitsVal_append (cs : List Char) (c : Char) :
    digitsVal (cs ++ [c]) = 10 * digitsVal cs + (c.toNat - 48) := by
  simp [digitsVal, List.foldl_append]

theorem digitsVal_renderAux : ∀ fuel n, n ≤ fuel → digitsVal (renderAux fuel n) = n := by
  intro fuel
  induction fuel with
  | zero =>
    intro n h
    have : n = 0 := by omega
    simp [this, renderAux, digitsVal]
  | succ f ih =>
    intro n h
    by_cases h0 : n = 0
    · simp [renderAux, h0, digitsVal]
    · have hdiv : n / 10 ≤ f := by omega
      simp only [renderAux, h0, if_false]
      rw [digitsVal_append, ih _ hdiv]
      have hm : n % 10 < 10 := Nat.mod_lt _ (by omega)
      have hall : ∀ d, d < 10 → (decChar d).toNat - 48 = d := by decide
      rw [hall _ hm]
      omega

theorem digitsVal_replicate_zero (m : Nat) (cs : List Char) :
    digitsVal (List.replicate m '0' ++ cs) = digitsVal cs := by
  induction m with
  | zero => simp
  | succ k ih =>
    have : List.replicate (k + 1) '0' ++ cs = '0' :: (List.replicate k '0' ++ cs) := by
      simp [List.replicate_succ]
    rw [this]
    simpa [digitsVal] using ih

theorem digitsVal_pad (w n : Nat) : digitsVal (padLeft w (renderNat n)) = n := by
  unfold padLeft
  rw [digitsVal_replicate_zero]
  exact digitsVal_renderAux n n le_rfl

theorem pad3N_inj {a b : Nat} (h : pad3N a = pad3N b) : a = b := by
  have h2 : padLeft 3 (renderNat a) = padLeft 3 (renderNat b) := congrArg String.data h
  have h3 := congrArg digitsVal h2
  rwa [digitsVal_pad, digitsVal_pad] at h3

theorem mkCand_inj (pre ext : String) {a b : Nat} (h : mkCand pre a ext = mkCand pre b ext) :
    a = b := by
  unfold mkCand at h
  have hd := congrArg String.data h
  simp only [String.data_append, List.append_assoc] at hd
  have h3 := List.append_cancel_left hd
  have h4 := List.append_cancel_right h3
  exact pad3N_inj (congrArg String.mk h4)

theorem existsFile_iff (fs : Fs) (x : String) : fs.existsFile x = true ↔ x ∈ fs.names := by
  simp [Fs.existsFile, Fs.names, List.any_eq_true, List.mem_map]

theorem probe_min (fs : Fs) (old pre ext : String) :
    ∀ fuel t0, (∃ i, i < fuel ∧ probeCont fs old pre ext (t0 + i) = false) →
      probeCont fs old pre ext (probe fs old pre ext t0 fuel) = false := by
  intro fuel
  induction fuel with
  | zero => exact fun t0 h => absurd h (by simp)
  | succ f ih =>
    intro t0 h
    by_cases hc : probeCont fs old pre ext t0 = true
    · simp only [probe, hc, if_true]
      obtain ⟨i, hi, hfalse⟩ := h
      match i, hi, hfalse with
      | 0, _, hfalse => exact absurd hc (by simp only [Nat.add_zero] at hfalse; simp [hfalse])
      | j + 1, hj, hfalse =>
        exact ih (t0 + 1) ⟨j, by omega, by have : t0 + 1 + j = t0 + (j + 1) := by omega
                                           rw [this]; exact hfalse⟩
    · simp only [probe]
      rw [if_neg hc]
      simpa using hc

theorem probe_stop_exists (fs : Fs) (old pre ext : String) (t0 : Nat) :
    ∃ i, i < fs.files.length + 1 ∧ probeCont fs old pre ext (t0 + i) = false := by
  by_contra hall
  push_neg at hall
  have hmem : ∀ i, i < fs.files.length + 1 → mkCand pre (t0 + i) ext ∈ fs.names := by
    intro i hi
    have ht : probeCont fs old pre ext (t0 + i) = true :=
      Bool.not_eq_false _ |>.mp (hall i hi)
    have hE : fs.existsFile (mkCand pre (t0 + i) ext) = true :=
      (Bool.and_eq_true _ _ |>.mp ht).1
    exact (existsFile_iff fs _).mp hE
  have hndL : ((List.range (fs.files.length + 1)).map
      (fun i => mkCand pre (t0 + i) ext)).Nodup := by
    refine List.Nodup.map ?_ (List.nodup_range _)
    intro i j hij
    have := mkCand_inj pre ext hij
    omega
  have hsubL : ((List.range (fs.files.length + 1)).map
      (fun i => mkCand pre (t0 + i) ext)) ⊆ fs.names := by
    intro x hx
    rcases List.mem_map.mp hx with ⟨i, hi, rfl⟩
    exact hmem i (List.mem_range.mp hi)
  have hlen := (List.subperm_of_subset hndL hsubL).length_le
  simp only [List.length_map, List.length_range, Fs.names] at hlen
  omega

theorem probe_exit (fs : Fs) (old pre ext : String) (t0 : Nat) :
    fs.existsFile (mkCand pre (probe fs old pre ext t0 (fs.files.length + 1)) ext) = false ∨
      mkCand pre (probe fs old pre ext t0 (fs.files.length + 1)) ext = old := by
  have h := probe_min fs old pre ext (fs.files.length + 1) t0
    (probe_stop_exists fs old pre ext t0)
  have h2 : fs.existsFile
        (mkCand pre (probe fs old pre ext t0 (fs.files.length + 1)) ext) = true →
      mkCand pre (probe fs old pre ext t0 (fs.files.length + 1)) ext = old := by
    simpa [probeCont] using h
  by_cases hE : fs.existsFile
      (mkCand pre (probe fs old pre ext t0 (fs.files.length + 1)) ext) = true
  · exact Or.inr (h2 hE)
  · exact Or.inl (by simpa using hE)

theorem rename_self (fs : Fs) (o : String) : fs.rename o o = fs := by
  unfold Fs.rename
  split
  · rw [if_pos rfl]
  · rfl

theorem not_mem_of_existsFile_false {fs : Fs} {n : String}
    (h : fs.existsFile n = false) : n ∉ fs.names := by
  intro hm
  have := (existsFile_iff fs n).mpr hm
  simp [this] at h

theorem rename_names (fs : Fs) (old new : String) (hnew : fs.existsFile new = false) :
    (fs.rename old new).names = fs.names.map (fun x => if x = old then new else x) := by
  unfold Fs.rename
  by_cases ho : fs.existsFile old = true
  · rw [if_pos ho]
    by_cases he : new = old
    · subst he
      rw [ho] at hnew
      cases hnew
    · rw [if_neg he]
      have hfil : fs.files.filter (fun p => p.1 ≠ new) = fs.files := by
        refine List.filter_eq_self.mpr ?_
        intro p hp
        have hpn : p.1 ≠ new := by
          intro hpe
          exact not_mem_of_existsFile_false hnew
            (hpe ▸ List.mem_map.mpr ⟨p, hp, rfl⟩)
        simpa using hpn
      rw [hfil]
      simp only [Fs.names, List.map_map]
      refine List.map_congr_left ?_
      intro p _
      by_cases hpo : p.1 = old <;> simp [hpo]
  · rw [if_neg ho]
    have hmap : ∀ x ∈ fs.names, (if x = old then new else x) = x := by
      intro x hx
      have hxo : x ≠ old := by
        intro he
        exact ho ((existsFile_iff fs old).mpr (he ▸ hx))
      simp [hxo]
    rw [List.map_congr_left hmap]
    simp

theorem rename_existsFile_new (fs : Fs) (old new : String)
    (hnew : fs.existsFile new = false) :
    (fs.rename old new).existsFile new = fs.existsFile old := by
  rcases ho : fs.existsFile old with _ | _
  · have : new ∉ (fs.rename old new).names := by
      rw [rename_names fs old new hnew]
      intro hm
      rcases List.mem_map.mp hm with ⟨y, hy, he⟩
      by_cases hyo : y = old
      · have hc := (existsFile_iff fs old).mpr (hyo ▸ hy)
        rw [ho] at hc
        exact absurd hc (by simp)
      · simp [hyo] at he
        exact not_mem_of_existsFile_false hnew (he ▸ hy)
    rcases hE : (fs.rename old new).existsFile new with _ | _
    · rfl
    · exact absurd ((existsFile_iff _ _).mp hE) this
  · have : new ∈ (fs.rename old new).names := by
      rw [rename_names fs old new hnew]
      exact List.mem_map.mpr ⟨old, (existsFile_iff fs old).mp ho, by simp⟩
    rw [(existsFile_iff _ _).mpr this]

theorem rename_existsFile_old (fs : Fs) (old new : String)
    (hnew : fs.existsFile new = false) (hne : new ≠ old) :
    (fs.rename old new).existsFile old = false := by
  rcases hE : (fs.rename old new).existsFile old with _ | _
  · rfl
  · exfalso
    have hm := (existsFile_iff _ _).mp hE
    rw [rename_names fs old new hnew] at hm
    rcases List.mem_map.mp hm with ⟨y, hy, he⟩
    by_cases hyo : y = old
    · simp [hyo] at he
      exact hne he
    · simp [hyo] at he

theorem rename_existsFile_other (fs : Fs) (old new x : String)
    (hnew : fs.existsFile new = false) (hxn : x ≠ new) (hxo : x ≠ old) :
    (fs.rename old new).existsFile x = fs.existsFile x := by
  have hmem : x ∈ (fs.rename old new).names ↔ x ∈ fs.names := by
    rw [rename_names fs old new hnew]
    constructor
    · intro hm
      rcases List.mem_map.mp hm with ⟨y, hy, he⟩
      by_cases hyo : y = old
      · simp [hyo] at he
        exact absurd he.symm hxn
      · simp [hyo] at he
        exact he ▸ hy
    · intro hm
      exact List.mem_map.mpr ⟨x, hm, by simp [hxo]⟩
  rcases hE : fs.existsFile x with _ | _
  · rcases hE2 : (fs.rename old new).existsFile x with _ | _
    · rfl
    · have := hmem.mp ((existsFile_iff _ _).mp hE2)
      have h3 := (existsFile_iff fs x).mpr this
      rw [hE] at h3
      exact absurd h3 (by simp)
  · exact (existsFile_iff _ _).mpr (hmem.mpr ((existsFile_iff _ _).mp hE))

theorem rename_nodup (fs : Fs) (old new : String) (hnd : fs.names.Nodup)
    (hnew : fs.existsFile new = false) :
    (fs.rename old new).names.Nodup := by
  rw [rename_names fs old new hnew]
  refine List.Nodup.map_on ?_ hnd
  intro a ha b hb he
  by_cases hao : a = old <;> by_cases hbo : b = old
  · rw [hao, hbo]
  · simp [hao, hbo] at he
    exact absurd (he ▸ hb) (not_mem_of_existsFile_false hnew)
  · simp [hao, hbo] at he
    exact absurd (he ▸ ha) (not_mem_of_existsFile_false hnew)
  · simpa [hao, hbo] using he

theorem rename_rename_back (fs : Fs) (o n : String) (hold : fs.existsFile o = true)
    (hnew : fs.existsFile n = false) (hne : n ≠ o) :
    (fs.rename o n).rename n o = fs := by
  have hfil1 : fs.files.filter (fun p => p.1 ≠ n) = fs.files := by
    refine List.filter_eq_self.mpr ?_
    intro p hp
    have hpn : p.1 ≠ n := fun hpe =>
      not_mem_of_existsFile_false hnew (hpe ▸ List.mem_map.mpr ⟨p, hp, rfl⟩)
    simpa using hpn
  have h1 : fs.rename o n = ⟨fs.files.map (fun p => if p.1 = o then (n, p.2) else p)⟩ := by
    unfold Fs.rename
    rw [if_pos hold, if_neg hne, hfil1]
  rw [h1]
  have hEn : Fs.existsFile ⟨fs.files.map (fun p => if p.1 = o then (n, p.2) else p)⟩ n = true := by
    apply List.any_eq_true.mpr
    rcases List.mem_map.mp ((existsFile_iff fs o).mp hold) with ⟨p, hp, hpe⟩
    exact ⟨(n, p.2), List.mem_map.mpr ⟨p, hp, by simp [hpe]⟩, by simp⟩
  unfold Fs.rename
  rw [if_pos hEn, if_neg (fun h => hne h.symm)]
  have hfil2 : (fs.files.map (fun p => if p.1 = o then (n, p.2) else p)).filter
      (fun p => p.1 ≠ o) = fs.files.map (fun p => if p.1 = o then (n, p.2) else p) := by
    refine List.filter_eq_self.mpr ?_
    intro q hq
    rcases List.mem_map.mp hq with ⟨p, hp, hpe⟩
    by_cases hpo : p.1 = o
    · simp [hpo] at hpe
      have : q.1 = n := by rw [← hpe]
      simp [this, hne]
    · simp [hpo] at hpe
      have : q.1 ≠ o := hpe ▸ hpo
      simpa using this
  rw [hfil2, List.map_map]
  have hpt : ∀ p ∈ fs.files,
      ((fun q => if q.1 = n then (o, q.2) else q) ∘
        (fun p => if p.1 = o then (n, p.2) else p)) p = p := by
    intro p hp
    by_cases hpo : p.1 = o
    · simp only [Function.comp_apply, hpo, if_true, if_pos rfl]
      rw [← hpo]
    · have hpn : p.1 ≠ n := fun hpe =>
        not_mem_of_existsFile_false hnew (hpe ▸ List.mem_map.mpr ⟨p, hp, rfl⟩)
      simp [Function.comp_apply, hpo, hpn]
  rw [List.map_congr_left hpt]
  simp

theorem renPairs_skip (o : String) (evs : List Ev) :
    renPairs (Ev.skip o :: evs) = renPairs evs := rfl

theorem renPairs_planned (o n : String) (t : Nat) (evs : List Ev) :
    renPairs (Ev.planned o n t :: evs) = renPairs evs := rfl

theorem renPairs_renamed (o n : String) (t k : Nat) (evs : List Ev) :
    renPairs (Ev.renamed o n t k :: evs) = (o, n) :: renPairs evs := rfl

theorem renPairs_failed (o n : String) (t k : Nat) (evs : List Ev) :
    renPairs (Ev.failed o n t k :: evs) = renPairs evs := rfl

theorem newsOf_skip (o : String) (evs : List Ev) :
    newsOf (Ev.skip o :: evs) = newsOf evs := rfl

theorem newsOf_renamed (o n : String) (t k : Nat) (evs : List Ev) :
    newsOf (Ev.renamed o n t k :: evs) = n :: newsOf evs := rfl

theorem applySeq_cons (o n : String) (ps : List (String × String)) (fs : Fs) :
    applySeq ((o, n) :: ps) fs = applySeq ps (fs.rename o n) := rfl

theorem allocOut_invariant (name : String) (bd dt : Date) (already : List String)
    (oks : Nat → Bool) (hoks : ∀ j, oks j = true) :
    ∀ (imgs : List String) (fs : Fs) (k counter : Nat) (others : List String),
      fs.names.Nodup →
      (∀ x ∈ imgs ++ others, fs.existsFile x = true) →
      (imgs ++ others).Nodup →
      ValidSeq fs (renPairs (allocOut name bd dt false already oks imgs fs k counter)) ∧
      (applySeq (renPairs (allocOut name bd dt false already oks imgs fs k counter)) fs).names.Nodup ∧
      (∀ x ∈ others,
        (applySeq (renPairs (allocOut name bd dt false already oks imgs fs k counter)) fs).existsFile x = true) ∧
      (newsOf (allocOut name bd dt false already oks imgs fs k counter)).Nodup ∧
      (∀ x ∈ others, x ∉ newsOf (allocOut name bd dt false already oks imgs fs k counter)) := by
  intro imgs
  induction imgs with
  | nil =>
    intro fs k counter others hnd hsub hndio
    refine ⟨trivial, ?_, ?_, ?_, ?_⟩
    · simpa [allocOut, renPairs, applySeq] using hnd
    · intro x hx
      simpa [allocOut, renPairs, applySeq] using hsub x (by simpa using hx)
    · simp [allocOut, renPairs, newsOf]
    · simp [allocOut, renPairs, newsOf]
  | cons img rest ih =>
    intro fs k counter others hnd hsub hndio
    rw [List.cons_append] at hsub hndio
    have himg : img ∉ rest ++ others := (List.nodup_cons.mp hndio).1
    have hro : (rest ++ others).Nodup := (List.nodup_cons.mp hndio).2
    by_cases hc : already.contains img = true
    · -- skipped file: nothing changes
      have hA : allocOut name bd dt false already oks (img :: rest) fs k counter =
          Ev.skip img :: allocOut name bd dt false already oks rest fs k counter := by
        simp only [allocOut]
        rw [if_pos hc]
      obtain ⟨h1, h2, h3, h4, h5⟩ := ih fs k counter others hnd
        (fun x hx => hsub x (List.mem_cons_of_mem _ hx)) hro
      rw [hA, renPairs_skip, newsOf_skip]
      exact ⟨h1, h2, h3, h4, h5⟩
    · -- live file: the collision probe resolves and the rename happens
      have hold : fs.existsFile img = true := hsub img (List.mem_cons_self _ _)
      have hexit := probe_exit fs img
        (schemePre name (fmtYYYYMMDD dt) (calculate_age_full bd dt))
        (lowerStr (pySuffix img)) counter
      set age := calculate_age_full bd dt with hage
      set dateStr := fmtYYYYMMDD dt with hds
      set ext := lowerStr (pySuffix img) with hext
      set pre := schemePre name dateStr age with hpre
      set t := probe fs img pre ext counter (fs.files.length + 1) with ht
      set newName := mkCand pre t ext with hnn
      have hA : allocOut name bd dt false already oks (img :: rest) fs k counter =
          Ev.renamed img newName t k ::
            allocOut name bd dt false already oks rest (fs.rename img newName) (k + 1)
              (counter + 1) := by
        simp only [allocOut]
        rw [if_neg hc]
        simp only [Bool.false_eq_true, if_false, hoks k, if_true]
      rw [hA, renPairs_renamed, newsOf_renamed, applySeq_cons]
      rcases hexit with hfree | hself
      · -- fresh target name
        have hnotin : newName ∉ rest ++ others := by
          intro hm
          have h := hsub newName (List.mem_cons_of_mem _ hm)
          rw [hfree] at h
          cases h
        have hndio2 : (rest ++ newName :: others).Nodup := by
          refine List.Perm.nodup List.perm_middle.symm ?_
          exact List.nodup_cons.mpr ⟨hnotin, hro⟩
        have hsub2 : ∀ x ∈ rest ++ newName :: others,
            (fs.rename img newName).existsFile x = true := by
          intro x hx
          rcases List.mem_append.mp hx with hxr | hxo
          · have hxi : x ≠ img := fun he => himg (he ▸ List.mem_append_left _ hxr)
            have hxn : x ≠ newName := by
              intro he
              have h := hsub x (List.mem_cons_of_mem _ (List.mem_append_left _ hxr))
              rw [he, hfree] at h
              cases h
            rw [rename_existsFile_other fs img newName x hfree hxn hxi]
            exact hsub x (List.mem_cons_of_mem _ (List.mem_append_left _ hxr))
          · rcases List.mem_cons.mp hxo with hxn | hxo2
            · rw [hxn, rename_existsFile_new fs img newName hfree]
              exact hold
            · have hxi : x ≠ img := fun he =>
                himg (he ▸ List.mem_append_right _ hxo2)
              have hxn : x ≠ newName := by
                intro he
                have h := hsub x (List.mem_cons_of_mem _ (List.mem_append_right _ hxo2))
                rw [he, hfree] at h
                cases h
              rw [rename_existsFile_other fs img newName x hfree hxn hxi]
              exact hsub x (List.mem_cons_of_mem _ (List.mem_append_right _ hxo2))
        obtain ⟨h1, h2, h3, h4, h5⟩ := ih (fs.rename img newName) (k + 1) (counter + 1)
          (newName :: others) (rename_nodup fs img newName hnd hfree) hsub2 hndio2
        refine ⟨⟨hold, Or.inl hfree, h1⟩, h2, ?_, ?_, ?_⟩
        · intro x hx
          exact h3 x (List.mem_cons_of_mem _ hx)
        · exact List.nodup_cons.mpr ⟨h5 newName (List.mem_cons_self _ _), h4⟩
        · intro x hx
          refine List.not_mem_cons_of_ne_of_not_mem ?_ (h5 x (List.mem_cons_of_mem _ hx))
          intro he
          have h := hsub x (List.mem_cons_of_mem _ (List.mem_append_right _ hx))
          rw [he, hfree] at h
          cases h
      · -- the candidate is the file itself: a self-rename
        have hfs : fs.rename img newName = fs := by rw [hself, rename_self]
        have hndio2 : (rest ++ newName :: others).Nodup := by
          refine List.Perm.nodup List.perm_middle.symm ?_
          rw [hself]
          exact List.nodup_cons.mpr ⟨himg, hro⟩
        have hsub2 : ∀ x ∈ rest ++ newName :: others,
            (fs.rename img newName).existsFile x = true := by
          intro x hx
          rw [hfs]
          rcases List.mem_append.mp hx with hxr | hxo
          · exact hsub x (List.mem_cons_of_mem _ (List.mem_append_left _ hxr))
          · rcases List.mem_cons.mp hxo with hxn | hxo2
            · rw [hxn, hself]
              exact hold
            · exact hsub x (List.mem_cons_of_mem _ (List.mem_append_right _ hxo2))
        obtain ⟨h1, h2, h3, h4, h5⟩ := ih (fs.rename img newName) (k + 1) (counter + 1)
          (newName :: others) (by rw [hfs]; exact hnd) hsub2 hndio2
        refine ⟨⟨hold, Or.inr hself, h1⟩, h2, ?_, ?_, ?_⟩
        · intro x hx
          exact h3 x (List.mem_cons_of_mem _ hx)
        · exact List.nodup_cons.mpr ⟨h5 newName (List.mem_cons_self _ _), h4⟩
        · intro x hx
          refine List.not_mem_cons_of_ne_of_not_mem ?_ (h5 x (List.mem_cons_of_mem _ hx))
          intro he
          refine himg ?_
          rw [← hself, ← he]
          exact List.mem_append_right _ hx

/-- C4 (amended): for every date bucket processed live (non-dry-run, all
renames succeeding) over a duplicate-free directory, the final names the
allocator produces are pairwise distinct; the embedded numeric IDs, however,
need not be monotone in filename sort order when a file already carries a
scheme name (see the counterexample). -/
theorem bucketLoop_news_nodup (name : String) (bd dt : Date) (already : List String)
    (ts : Nat → String) (oks : Nat → Bool) (imgs : List String) (fs : Fs)
    (log : Option (List String)) (k counter : Nat)
    (hoks : ∀ j, oks j = true) (hnd : fs.names.Nodup) (himgs : imgs.Nodup)
    (hsub : ∀ i ∈ imgs, fs.existsFile i = true) :
    (newsOf (bucketLoop name bd dt false already ts oks imgs
      ⟨fs, log, [], k⟩ counter).1.evs).Nodup := by
  rw [bucketLoop_eq]
  have h := (allocOut_invariant name bd dt already oks hoks imgs fs k counter [] hnd
    (by simpa using hsub) (by simpa using himgs)).2.2.2.1
  simpa using h

theorem ValidSeq_append (a b : List (String × String)) :
    ∀ fs : Fs, ValidSeq fs (a ++ b) ↔ ValidSeq fs a ∧ ValidSeq (applySeq a fs) b := by
  induction a with
  | nil => intro fs; simp [ValidSeq, applySeq]
  | cons p ps ih =>
    intro fs
    rcases p with ⟨o, n⟩
    rw [List.cons_append]
    show (_ ∧ _ ∧ ValidSeq (fs.rename o n) (ps ++ b)) ↔ _
    rw [ih (fs.rename o n), applySeq_cons]
    show _ ↔ ((_ ∧ _ ∧ ValidSeq (fs.rename o n) ps) ∧ _)
    tauto

theorem runBuckets_invariant (name : String) (bd : Date) (already : List String)
    (oks : Nat → Bool) (bf : Date → List String) (hoks : ∀ j, oks j = true) :
    ∀ (dts : List Date) (fs : Fs) (k : Nat),
      fs.names.Nodup →
      (∀ x ∈ catMap bf dts, fs.existsFile x = true) →
      (catMap bf dts).Nodup →
      ValidSeq fs (renPairs (runBuckets name bd false already oks bf dts fs k)) ∧
      (applySeq (renPairs (runBuckets name bd false already oks bf dts fs k)) fs).names.Nodup := by
  intro dts
  induction dts with
  | nil =>
    intro fs k hnd _ _
    exact ⟨trivial, by simpa [runBuckets, renPairs, applySeq] using hnd⟩
  | cons dt dts ih =>
    intro fs k hnd hsub hndj
    have hcat : catMap bf (dt :: dts) = bf dt ++ catMap bf dts := rfl
    rw [hcat] at hsub hndj
    have hR : runBuckets name bd false already oks bf (dt :: dts) fs k =
        allocOut name bd dt false already oks (bf dt) fs k 1 ++
          runBuckets name bd false already oks bf dts
            (applySeq (renPairs (allocOut name bd dt false already oks (bf dt) fs k 1)) fs)
            (k + attempts (allocOut name bd dt false already oks (bf dt) fs k 1)) := rfl
    obtain ⟨h1, h2, h3, _, _⟩ := allocOut_invariant name bd dt already oks hoks (bf dt)
      fs k 1 (catMap bf dts) hnd hsub hndj
    obtain ⟨h4, h5⟩ := ih
      (applySeq (renPairs (allocOut name bd dt false already oks (bf dt) fs k 1)) fs)
      (k + attempts (allocOut name bd dt false already oks (bf dt) fs k 1))
      h2 h3 (List.Nodup.of_append_right hndj)
    rw [hR, renPairs_append]
    refine ⟨(ValidSeq_append _ _ fs).mpr ⟨h1, h4⟩, ?_⟩
    rw [applySeq_append]
    exact h5

theorem allocOut_olds (name : String) (bd dt : Date) (dryRun : Bool)
    (already : List String) (oks : Nat → Bool) :
    ∀ (imgs : List String) (fs : Fs) (k counter : Nat),
      ∀ pr ∈ renPairs (allocOut name bd dt dryRun already oks imgs fs k counter),
        pr.1 ∈ imgs := by
  intro imgs
  induction imgs with
  | nil => intro fs k counter pr hpr; simp [allocOut, renPairs] at hpr
  | cons img rest ih =>
    intro fs k counter pr hpr
    simp only [allocOut] at hpr
    by_cases hc : already.contains img = true
    · rw [if_pos hc, renPairs_skip] at hpr
      exact List.mem_cons_of_mem _ (ih fs k counter pr hpr)
    · rw [if_neg hc] at hpr
      split at hpr
      · rw [renPairs_planned] at hpr
        exact List.mem_cons_of_mem _ (ih fs k (counter + 1) pr hpr)
      · split at hpr
        · rw [renPairs_renamed] at hpr
          rcases List.mem_cons.mp hpr with he | hm
          · rw [he]
            exact List.mem_cons_self _ _
          · exact List.mem_cons_of_mem _ (ih _ _ _ pr hm)
        · rw [renPairs_failed] at hpr
          exact List.mem_cons_of_mem _ (ih _ _ _ pr hpr)

theorem runBuckets_olds (name : String) (bd : Date) (dryRun : Bool)
    (already : List String) (oks : Nat → Bool) (bf : Date → List String) :
    ∀ (dts : List Date) (fs : Fs) (k : Nat),
      ∀ pr ∈ renPairs (runBuckets name bd dryRun already oks bf dts fs k),
        pr.1 ∈ catMap bf dts := by
  intro dts
  induction dts with
  | nil => intro fs k pr hpr; simp [runBuckets, renPairs] at hpr
  | cons dt dts ih =>
    intro fs k pr hpr
    have hR : runBuckets name bd dryRun already oks bf (dt :: dts) fs k =
        allocOut name bd dt dryRun already oks (bf dt) fs k 1 ++
          runBuckets name bd dryRun already oks bf dts
            (applySeq (renPairs (allocOut name bd dt dryRun already oks (bf dt) fs k 1)) fs)
            (k + attempts (allocOut name bd dt dryRun already oks (bf dt) fs k 1)) := rfl
    rw [hR, renPairs_append] at hpr
    have hcat : catMap bf (dt :: dts) = bf dt ++ catMap bf dts := rfl
    rw [hcat]
    rcases List.mem_append.mp hpr with hm | hm
    · exact List.mem_append_left _ (allocOut_olds name bd dt dryRun already oks _ _ _ _ pr hm)
    · exact List.mem_append_right _ (ih _ _ pr hm)

theorem appendLines_some (ls : List String) (L : List String) :
    appendLines (some ls) L = some (ls ++ L) := by
  induction L generalizing ls with
  | nil => simp [appendLines]
  | cons l L ih =>
    show appendLines (appendLine (some ls) l) L = _
    rw [show appendLine (some ls) l = some (ls ++ [l]) from rfl, ih]
    simp

theorem parsePairs_append (L1 L2 : List String) (P1 P2 : List (String × String))
    (h1 : parsePairs L1 = some P1) (h2 : parsePairs L2 = some P2) :
    parsePairs (L1 ++ L2) = some (P1 ++ P2) := by
  induction L1 generalizing P1 with
  | nil =>
    obtain rfl : P1 = [] := by simpa [parsePairs] using h1.symm
    simpa using h2
  | cons l ls ih =>
    simp only [parsePairs] at h1
    rcases hs : split2 l with _ | ⟨t, o, n⟩
    · rw [hs] at h1; cases h1
    · rw [hs] at h1
      rcases hp : parsePairs ls with _ | P'
      · rw [hp] at h1; cases h1
      · rw [hp] at h1
        have hP1 : P1 = (o, n) :: P' := by
          simpa using h1.symm
        rw [List.cons_append]
        simp only [parsePairs, hs]
        rw [ih P' hp]
        simp [hP1]

theorem parsePairs_reverse (L : List String) (P : List (String × String))
    (h : parsePairs L = some P) : parsePairs L.reverse = some P.reverse := by
  induction L generalizing P with
  | nil =>
    obtain rfl : P = [] := by simpa [parsePairs] using h.symm
    simp [parsePairs]
  | cons l ls ih =>
    simp only [parsePairs] at h
    rcases hs : split2 l with _ | ⟨t, o, n⟩
    · rw [hs] at h; cases h
    · rw [hs] at h
      rcases hp : parsePairs ls with _ | P'
      · rw [hp] at h; cases h
      · rw [hp] at h
        have hP : P = (o, n) :: P' := by simpa using h.symm
        rw [List.reverse_cons, hP, List.reverse_cons]
        refine parsePairs_append _ _ _ _ (ih P' hp) ?_
        simp [parsePairs, hs]

theorem replayFold_cons (p : String × String) (ps : List (String × String)) (fs : Fs) :
    replayFold (p :: ps) fs = replayFold ps (undoStep fs p) := rfl

theorem replayFold_append (a b : List (String × String)) (fs : Fs) :
    replayFold (a ++ b) fs = replayFold b (replayFold a fs) :=
  List.foldl_append _ _ _ _

theorem replay_parsed (uoks : Nat → Bool) (huoks : ∀ j, uoks j = true) :
    ∀ (L : List String) (P : List (String × String)) (fs : Fs) (k : Nat),
      parsePairs L = some P →
      ∃ k2, replay uoks L fs k = Except.ok (replayFold P fs, k2) := by
  intro L
  induction L with
  | nil =>
    intro P fs k h
    obtain rfl : P = [] := by simpa [parsePairs] using h.symm
    exact ⟨k, rfl⟩
  | cons l ls ih =>
    intro P fs k h
    simp only [parsePairs] at h
    rcases hs : split2 l with _ | ⟨t, o, n⟩
    · rw [hs] at h; cases h
    · rw [hs] at h
      rcases hp : parsePairs ls with _ | P'
      · rw [hp] at h; cases h
      · rw [hp] at h
        obtain rfl : P = (o, n) :: P' := by simpa using h.symm
        show ∃ k2, replay uoks (l :: ls) fs k = _
        simp only [replay, hs]
        rw [replayFold_cons]
        unfold undoStep
        by_cases hg : (fs.existsFile n && !fs.existsFile o) = true
        · rw [if_pos hg, if_pos hg, huoks k, if_pos rfl]
          exact ih P' (fs.rename n o) (k + 1) hp
        · rw [if_neg hg, if_neg hg]
          exact ih P' fs k hp

theorem replayFold_inverts : ∀ (prs : List (String × String)) (fs : Fs),
    fs.names.Nodup → ValidSeq fs prs →
    replayFold prs.reverse (applySeq prs fs) = fs := by
  intro prs
  induction prs with
  | nil => intro fs _ _; simp [replayFold, applySeq]
  | cons p ps ih =>
    intro fs hnd hv
    rcases p with ⟨o, n⟩
    obtain ⟨h1, h2, h3⟩ := hv
    rw [List.reverse_cons, applySeq_cons, replayFold_append]
    by_cases he : n = o
    · subst he
      rw [rename_self] at h3 ⊢
      rw [ih fs hnd h3]
      show undoStep fs (n, n) = fs
      unfold undoStep
      rw [if_neg (by cases h : fs.existsFile n <;> simp [h])]
    · have hfree : fs.existsFile n = false := h2.resolve_right he
      rw [ih (fs.rename o n) (rename_nodup fs o n hnd hfree) h3]
      show undoStep (fs.rename o n) (o, n) = fs
      unfold undoStep
      rw [if_pos (by
        rw [rename_existsFile_new fs o n hfree, h1,
          rename_existsFile_old fs o n hfree he]
        rfl)]
      exact rename_rename_back fs o n h1 hfree he

theorem breakComma_append (a b : List Char) (h : ',' ∉ a) :
    breakComma (a ++ ',' :: b) = some (a, b) := by
  induction a with
  | nil => simp [breakComma]
  | cons c cs ih =>
    have hc : c ≠ ',' := fun he => h (he ▸ List.mem_cons_self _ _)
    have hcs : ',' ∉ cs := fun hm => h (List.mem_cons_of_mem _ hm)
    rw [List.cons_append]
    show (if c = ',' then _ else (breakComma (cs ++ ',' :: b)).map _) = _
    rw [if_neg hc, ih hcs]
    rfl

theorem split2_mkLogLine (tsv old nw : String)
    (ht : ',' ∉ tsv.data) (ho : ',' ∉ old.data) :
    split2 (mkLogLine tsv old nw) = some (tsv, old, nw) := by
  have hd : (mkLogLine tsv old nw).data
      = tsv.data ++ ',' :: (old.data ++ ',' :: nw.data) := by
    simp [mkLogLine, String.data_append]
  unfold split2
  rw [hd, breakComma_append _ _ ht]
  show (match breakComma (old.data ++ ',' :: nw.data) with
    | none => none
    | some (b, c) => some (String.mk tsv.data, String.mk b, String.mk c)) = _
  rw [breakComma_append _ _ ho]

theorem parsePairs_renLines (ts : Nat → String) (hts : ∀ j, ',' ∉ (ts j).data) :
    ∀ evs : List Ev, (∀ pr ∈ renPairs evs, ',' ∉ pr.1.data) →
      parsePairs (renLines ts evs) = some (renPairs evs) := by
  intro evs
  induction evs with
  | nil => intro _; rfl
  | cons e evs ih =>
    intro holds
    cases e with
    | skip o =>
      rw [renPairs_skip] at holds ⊢
      exact ih holds
    | planned o n t =>
      rw [renPairs_planned] at holds ⊢
      exact ih holds
    | failed o n t k =>
      rw [renPairs_failed] at holds ⊢
      exact ih holds
    | renamed o n t k =>
      rw [renPairs_renamed] at holds ⊢
      have hline : renLines ts (Ev.renamed o n t k :: evs) =
          mkLogLine (ts k) o n :: renLines ts evs := rfl
      rw [hline]
      show (match split2 (mkLogLine (ts k) o n) with
        | none => none
        | some (_, o2, n2) => (parsePairs (renLines ts evs)).map
            (fun ps => (o2, n2) :: ps)) = _
      rw [split2_mkLogLine (ts k) o n (hts k)
        (holds (o, n) (List.mem_cons_self _ _)),
        ih (fun pr hpr => holds pr (List.mem_cons_of_mem _ hpr))]
      rfl

theorem gatherImages_subset (fs : Fs) : ∀ x ∈ gatherImages fs, x ∈ fs.names := by
  intro x hx
  unfold gatherImages at hx
  rw [(sortBy_perm strLe _).mem_iff] at hx
  exact (List.mem_filter.mp hx).1

theorem gatherImages_nodup (fs : Fs) (hnd : fs.names.Nodup) :
    (gatherImages fs).Nodup :=
  (sortBy_perm strLe _).nodup_iff.mpr (hnd.filter _)

theorem catMap_buckets_perm (resolve : Nat → Date) (fs : Fs) (images : List String) :
    List.Perm
      (catMap (bucketFiles resolve fs images) (bucketDates resolve fs images))
      images :=
  bucketsJoin_perm resolve fs images

/-- C3 (amended): for every directory state with **no pre-existing log file**,
pairwise-distinct comma-free filenames, comma-free timestamps, and no rename
failures, running the task (non-dry-run) and then `undo` with `force = true`
restores every originally-named file to its original path and leaves no log
file: the exact original directory is recovered. -/
theorem processTask_undo_inverse (name birth : String) (resolve : Nat → Date)
    (ts : Nat → String) (oks uoks : Nat → Bool) (fs0 : Fs) (resp : String)
    (hnd : fs0.names.Nodup)
    (hoks : ∀ j, oks j = true) (huoks : ∀ j, uoks j = true)
    (hts : ∀ j, ',' ∉ (ts j).data)
    (hnames : ∀ n ∈ fs0.names, ',' ∉ n.data) :
    undo_renames (processTask name birth false resolve ts oks fs0 none).2.fs
      (processTask name birth false resolve ts oks fs0 none).2.log true resp uoks =
      (fs0, none) := by
  cases hp : parseBirth birth with
  | none =>
    have hfr : processTask name birth false resolve ts oks fs0 none =
        (false, ⟨fs0, none, [], 0⟩) := by
      unfold processTask
      rw [hp]
    rw [hfr]
    rfl
  | some bd =>
    by_cases hne : gatherImages fs0 = []
    · have hfr : processTask name birth false resolve ts oks fs0 none =
          (false, ⟨fs0, none, [], 0⟩) := by
        unfold processTask
        rw [hp]
        simp [hne]
      rw [hfr]
      rfl
    · rw [processTask_eq name birth false resolve ts oks fs0 none bd hp hne]
      have hperm := catMap_buckets_perm resolve fs0 (gatherImages fs0)
      have hsubc : ∀ x ∈ catMap (bucketFiles resolve fs0 (gatherImages fs0))
          (bucketDates resolve fs0 (gatherImages fs0)), fs0.existsFile x = true := by
        intro x hx
        exact (existsFile_iff fs0 x).mpr
          (gatherImages_subset fs0 x (hperm.mem_iff.mp hx))
      have hndc : (catMap (bucketFiles resolve fs0 (gatherImages fs0))
          (bucketDates resolve fs0 (gatherImages fs0))).Nodup :=
        hperm.nodup_iff.mpr (gatherImages_nodup fs0 hnd)
      obtain ⟨hvalid, _⟩ := runBuckets_invariant name bd (alreadyRenamed none) oks
        (bucketFiles resolve fs0 (gatherImages fs0)) hoks
        (bucketDates resolve fs0 (gatherImages fs0)) fs0 0 hnd hsubc hndc
      have holds : ∀ pr ∈ renPairs (taskEvs name bd false resolve oks fs0 none),
          ',' ∉ pr.1.data := by
        intro pr hpr
        have := runBuckets_olds name bd false (alreadyRenamed none) oks
          (bucketFiles resolve fs0 (gatherImages fs0))
          (bucketDates resolve fs0 (gatherImages fs0)) fs0 0 pr hpr
        exact hnames pr.1 (gatherImages_subset fs0 pr.1 (hperm.mem_iff.mp this))
      have hparse := parsePairs_renLines ts hts
        (taskEvs name bd false resolve oks fs0 none) holds
      have hparseR := parsePairs_reverse _ _ hparse
      have hlog : appendLines (logCreate none false)
          (renLines ts (taskEvs name bd false resolve oks fs0 none)) =
          some (logHeader :: renLines ts (taskEvs name bd false resolve oks fs0 none)) := by
        show appendLines (some [logHeader]) _ = _
        rw [appendLines_some]
        rfl
      show undo_renames _ _ true resp uoks = (fs0, none)
      rw [hlog]
      unfold undo_renames
      obtain ⟨k2, hrep⟩ := replay_parsed uoks huoks _ _
        (applySeq (renPairs (taskEvs name bd false resolve oks fs0 none)) fs0) 0 hparseR
      simp only [Bool.not_true, Bool.false_and, Bool.false_eq_true, if_false,
        List.drop_succ_cons, List.drop_zero]
      rw [hrep, replayFold_inverts (renPairs (taskEvs name bd false resolve oks fs0 none))
        fs0 hnd (by exact hvalid)]

theorem replay_eq_undoFold (uoks : Nat → Bool) :
    ∀ (L : List String) (P : List (String × String)) (fs : Fs) (k : Nat),
      parsePairs L = some P →
      replay uoks L fs k = Except.ok (undoFoldOks uoks P fs k) := by
  intro L
  induction L with
  | nil =>
    intro P fs k h
    obtain rfl : P = [] := by simpa [parsePairs] using h.symm
    rfl
  | cons l ls ih =>
    intro P fs k h
    simp only [parsePairs] at h
    rcases hs : split2 l with _ | ⟨t, o, n⟩
    · rw [hs] at h; cases h
    · rw [hs] at h
      rcases hp : parsePairs ls with _ | P'
      · rw [hp] at h; cases h
      · rw [hp] at h
        obtain rfl : P = (o, n) :: P' := by simpa using h.symm
        show replay uoks (l :: ls) fs k = _
        simp only [replay, hs]
        show (if fs.existsFile n && !fs.existsFile o then _ else _) = _
        unfold undoFoldOks
        by_cases hg : (fs.existsFile n && !fs.existsFile o) = true
        · rw [if_pos hg, if_pos hg]
          by_cases hu : uoks k = true
          · rw [if_pos hu, if_pos hu]
            exact ih P' (fs.rename n o) (k + 1) hp
          · rw [if_neg hu, if_neg hu]
            exact ih P' fs (k + 1) hp
        · rw [if_neg hg, if_neg hg]
          exact ih P' fs k hp

theorem mem_catMap {α β : Type} (f : α → List β) (l : List α) (x : β) :
    x ∈ catMap f l ↔ ∃ a ∈ l, x ∈ f a := by
  induction l with
  | nil => simp [catMap]
  | cons a as ih =>
    show x ∈ f a ++ catMap f as ↔ _
    rw [List.mem_append, ih]
    simp

theorem skipsOf_skip (o : String) (evs : List Ev) :
    skipsOf (Ev.skip o :: evs) = o :: skipsOf evs := rfl

theorem skipsOf_planned (o n : String) (t : Nat) (evs : List Ev) :
    skipsOf (Ev.planned o n t :: evs) = skipsOf evs := rfl

theorem skipsOf_renamed (o n : String) (t k : Nat) (evs : List Ev) :
    skipsOf (Ev.renamed o n t k :: evs) = skipsOf evs := rfl

theorem skipsOf_failed (o n : String) (t k : Nat) (evs : List Ev) :
    skipsOf (Ev.failed o n t k :: evs) = skipsOf evs := rfl

theorem allocOut_skips (name : String) (bd dt : Date) (dryRun : Bool)
    (already : List String) (oks : Nat → Bool) :
    ∀ (imgs : List String) (fs : Fs) (k counter : Nat),
      skipsOf (allocOut name bd dt dryRun already oks imgs fs k counter) =
        imgs.filter (fun i => already.contains i) := by
  intro imgs
  induction imgs with
  | nil => intro fs k counter; rfl
  | cons img rest ih =>
    intro fs k counter
    simp only [allocOut]
    by_cases hc : already.contains img = true
    · rw [if_pos hc, skipsOf_skip, ih, List.filter_cons, if_pos hc]
    · rw [if_neg hc]
      split
      · rw [skipsOf_planned, ih, List.filter_cons, if_neg hc]
      · split
        · rw [skipsOf_renamed, ih, List.filter_cons, if_neg hc]
        · rw [skipsOf_failed, ih, List.filter_cons, if_neg hc]

theorem runBuckets_skips (name : String) (bd : Date) (dryRun : Bool)
    (already : List String) (oks : Nat → Bool) (bf : Date → List String) :
    ∀ (dts : List Date) (fs : Fs) (k : Nat),
      skipsOf (runBuckets name bd dryRun already oks bf dts fs k) =
        catMap (fun dt => (bf dt).filter (fun i => already.contains i)) dts := by
  intro dts
  induction dts with
  | nil => intro fs k; rfl
  | cons dt dts ih =>
    intro fs k
    show skipsOf (allocOut name bd dt dryRun already oks (bf dt) fs k 1 ++ _) = _
    rw [skipsOf_append, allocOut_skips, ih]
    rfl

theorem renLines_skip (ts : Nat → String) (o : String) (evs : List Ev) :
    renLines ts (Ev.skip o :: evs) = renLines ts evs := rfl

theorem renLines_planned (ts : Nat → String) (o n : String) (t : Nat) (evs : List Ev) :
    renLines ts (Ev.planned o n t :: evs) = renLines ts evs := rfl

theorem renLines_renamed (ts : Nat → String) (o n : String) (t k : Nat) (evs : List Ev) :
    renLines ts (Ev.renamed o n t k :: evs) = mkLogLine (ts k) o n :: renLines ts evs := rfl

theorem renLines_failed (ts : Nat → String) (o n : String) (t k : Nat) (evs : List Ev) :
    renLines ts (Ev.failed o n t k :: evs) = renLines ts evs := rfl

theorem attempts_skip (o : String) (evs : List Ev) :
    attempts (Ev.skip o :: evs) = attempts evs := rfl

theorem attempts_planned (o n : String) (t : Nat) (evs : List Ev) :
    attempts (Ev.planned o n t :: evs) = attempts evs := rfl

theorem allocOut_dry (name : String) (bd dt : Date) (already : List String)
    (oks : Nat → Bool) :
    ∀ (imgs : List String) (fs : Fs) (k counter : Nat),
      renPairs (allocOut name bd dt true already oks imgs fs k counter) = [] ∧
      (∀ ts : Nat → String,
        renLines ts (allocOut name bd dt true already oks imgs fs k counter) = []) ∧
      (allocOut name bd dt true already oks imgs fs k counter).length = imgs.length ∧
      attempts (allocOut name bd dt true already oks imgs fs k counter) = 0 ∧
      ((∀ i ∈ imgs, already.contains i = false) →
        ∀ e ∈ allocOut name bd dt true already oks imgs fs k counter, isPlanned e = true) := by
  intro imgs
  induction imgs with
  | nil =>
    intro fs k counter
    exact ⟨rfl, fun _ => rfl, rfl, rfl, fun _ e he => absurd he (by simp [allocOut])⟩
  | cons img rest ih =>
    intro fs k counter
    simp only [allocOut]
    by_cases hc : already.contains img = true
    · rw [if_pos hc]
      obtain ⟨h1, h2, h3, h4, h5⟩ := ih fs k counter
      refine ⟨by rw [renPairs_skip]; exact h1,
        fun ts => by rw [renLines_skip]; exact h2 ts,
        by simp [h3],
        by rw [attempts_skip]; exact h4, ?_⟩
      intro hno
      have hf := hno img (List.mem_cons_self _ _)
      rw [hf] at hc
      cases hc
    · rw [if_neg hc]
      split
      · obtain ⟨h1, h2, h3, h4, h5⟩ := ih fs k (counter + 1)
        refine ⟨by rw [renPairs_planned]; exact h1,
          fun ts => by rw [renLines_planned]; exact h2 ts,
          by simp [h3],
          by rw [attempts_planned]; exact h4, ?_⟩
        intro hno e he
        rcases List.mem_cons.mp he with he2 | he2
        · rw [he2]; rfl
        · exact h5 (fun i hi => hno i (List.mem_cons_of_mem _ hi)) e he2
      · exact absurd trivial (by assumption)

theorem logCreate_dry (log0 : Option (List String)) : logCreate log0 true = log0 := by
  cases log0 <;> rfl

theorem appendLines_nil (log : Option (List String)) : appendLines log [] = log := rfl

theorem runBuckets_dry (name : String) (bd : Date) (already : List String)
    (oks : Nat → Bool) (bf : Date → List String) :
    ∀ (dts : List Date) (fs : Fs) (k : Nat),
      renPairs (runBuckets name bd true already oks bf dts fs k) = [] ∧
      (∀ ts : Nat → String,
        renLines ts (runBuckets name bd true already oks bf dts fs k) = []) ∧
      (runBuckets name bd true already oks bf dts fs k).length =
        (catMap bf dts).length ∧
      ((∀ i ∈ catMap bf dts, already.contains i = false) →
        ∀ e ∈ runBuckets name bd true already oks bf dts fs k, isPlanned e = true) := by
  intro dts
  induction dts with
  | nil => intro fs k; exact ⟨rfl, fun _ => rfl, rfl, fun _ e he => absurd he (by simp [runBuckets])⟩
  | cons dt dts ih =>
    intro fs k
    obtain ⟨a1, a2, a3, a4, a5⟩ := allocOut_dry name bd dt already oks (bf dt) fs k 1
    have hR : runBuckets name bd true already oks bf (dt :: dts) fs k =
        allocOut name bd dt true already oks (bf dt) fs k 1 ++
          runBuckets name bd true already oks bf dts fs k := by
      show (allocOut name bd dt true already oks (bf dt) fs k 1 ++
        runBuckets name bd true already oks bf dts
          (applySeq (renPairs (allocOut name bd dt true already oks (bf dt) fs k 1)) fs)
          (k + attempts (allocOut name bd dt true already oks (bf dt) fs k 1))) = _
      rw [a1, a4]
      rfl
    obtain ⟨i1, i2, i3, i4⟩ := ih fs k
    have hcat : catMap bf (dt :: dts) = bf dt ++ catMap bf dts := rfl
    rw [hR]
    refine ⟨?_, ?_, ?_, ?_⟩
    · rw [renPairs_append, a1, i1]
      rfl
    · intro ts
      rw [renLines_append, a2 ts, i2 ts]
      rfl
    · rw [List.length_append, a3, i3, hcat, List.length_append]
    · intro hno e he
      rw [hcat] at hno
      rcases List.mem_append.mp he with hm | hm
      · exact a5 (fun i hi => hno i (List.mem_append_left _ hi)) e hm
      · exact i4 (fun i hi => hno i (List.mem_append_right _ hi)) e hm

theorem processTask_error (name birth : String) (dryRun : Bool) (resolve : Nat → Date)
    (ts : Nat → String) (oks : Nat → Bool) (fs0 : Fs) (log0 : Option (List String))
    (h : parseBirth birth = none ∨ gatherImages fs0 = []) :
    processTask name birth dryRun resolve ts oks fs0 log0 = (false, ⟨fs0, log0, [], 0⟩) := by
  unfold processTask
  rcases h with h | h
  · rw [h]
  · cases hp : parseBirth birth with
    | none => rfl
    | some bd => simp [h]

/-- C6 (amended): a task run emits a `[SKIP]` for a file exactly when the
file's **current** filename appears in the old-filename column of the log;
files physically renamed by a previous run bear new names, so a second run
skips nothing for them and instead re-allocates (renaming in place when the
IDs are unchanged), as the counterexample shows. -/
theorem processTask_skip_iff (name birth : String) (dryRun : Bool)
    (resolve : Nat → Date) (ts : Nat → String) (oks : Nat → Bool)
    (fs0 : Fs) (log0 : Option (List String)) (bd : Date) (x : String)
    (hp : parseBirth birth = some bd) :
    x ∈ skipsOf (processTask name birth dryRun resolve ts oks fs0 log0).2.evs ↔
      (x ∈ gatherImages fs0 ∧ (alreadyRenamed log0).contains x = true) := by
  by_cases hne : gatherImages fs0 = []
  · rw [processTask_error name birth dryRun resolve ts oks fs0 log0 (Or.inr hne)]
    simp [skipsOf, hne]
  · rw [processTask_eq name birth dryRun resolve ts oks fs0 log0 bd hp hne]
    show x ∈ skipsOf (taskEvs name bd dryRun resolve oks fs0 log0) ↔ _
    unfold taskEvs
    rw [runBuckets_skips, mem_catMap]
    constructor
    · rintro ⟨dt, hdt, hxf⟩
      have hx2 := List.mem_filter.mp hxf
      refine ⟨?_, by simpa using hx2.2⟩
      have hxc : x ∈ catMap (bucketFiles resolve fs0 (gatherImages fs0))
          (bucketDates resolve fs0 (gatherImages fs0)) :=
        (mem_catMap _ _ _).mpr ⟨dt, hdt, hx2.1⟩
      exact (catMap_buckets_perm resolve fs0 _).mem_iff.mp hxc
    · rintro ⟨hxi, hxa⟩
      have hxc : x ∈ catMap (bucketFiles resolve fs0 (gatherImages fs0))
          (bucketDates resolve fs0 (gatherImages fs0)) :=
        (catMap_buckets_perm resolve fs0 _).mem_iff.mpr hxi
      rcases (mem_catMap _ _ _).mp hxc with ⟨dt, hdt, hxb⟩
      exact ⟨dt, hdt, List.mem_filter.mpr ⟨hxb, by simpa using hxa⟩⟩

/-- C7: the log after a task run is exactly the created-or-existing base plus
one line per **successful** rename event, in order (`renLines` keeps only
`Ev.renamed` outcomes, each line written in the same step, after its rename),
and the directory reflects exactly those renames — a file whose rename raised
never produces a log entry. -/
theorem processTask_log_after_rename (name birth : String) (dryRun : Bool)
    (resolve : Nat → Date) (ts : Nat → String) (oks : Nat → Bool)
    (fs0 : Fs) (log0 : Option (List String)) (bd : Date)
    (hp : parseBirth birth = some bd) (hne : gatherImages fs0 ≠ []) :
    (processTask name birth dryRun resolve ts oks fs0 log0).2.log =
      appendLines (logCreate log0 dryRun)
        (renLines ts (processTask name birth dryRun resolve ts oks fs0 log0).2.evs) ∧
    (processTask name birth dryRun resolve ts oks fs0 log0).2.fs =
      applySeq (renPairs (processTask name birth dryRun resolve ts oks fs0 log0).2.evs) fs0 := by
  rw [processTask_eq name birth dryRun resolve ts oks fs0 log0 bd hp hne]
  exact ⟨rfl, rfl⟩

/-- C8: in dry-run mode, for eligible images none of which appear in the log,
the task performs no rename (the directory is unchanged), creates no log file
(the log is unchanged), and emits exactly one `[DRY-RUN]` outcome per image. -/
theorem processTask_dry_frame (name birth : String) (resolve : Nat → Date)
    (ts : Nat → String) (oks : Nat → Bool) (fs0 : Fs) (log0 : Option (List String))
    (bd : Date) (hp : parseBirth birth = some bd)
    (hskip : ∀ n ∈ gatherImages fs0, (alreadyRenamed log0).contains n = false) :
    (processTask name birth true resolve ts oks fs0 log0).2.fs = fs0 ∧
    (processTask name birth true resolve ts oks fs0 log0).2.log = log0 ∧
    renPairs (processTask name birth true resolve ts oks fs0 log0).2.evs = [] ∧
    (processTask name birth true resolve ts oks fs0 log0).2.evs.length =
      (gatherImages fs0).length ∧
    ∀ e ∈ (processTask name birth true resolve ts oks fs0 log0).2.evs,
      isPlanned e = true := by
  by_cases hne : gatherImages fs0 = []
  · rw [processTask_error name birth true resolve ts oks fs0 log0 (Or.inr hne)]
    exact ⟨rfl, rfl, rfl, by rw [hne]; rfl, fun e he => absurd he (by simp)⟩
  · rw [processTask_eq name birth true resolve ts oks fs0 log0 bd hp hne]
    obtain ⟨r1, r2, r3, r4⟩ := runBuckets_dry name bd (alreadyRenamed log0) oks
      (bucketFiles resolve fs0 (gatherImages fs0))
      (bucketDates resolve fs0 (gatherImages fs0)) fs0 0
    have hperm := catMap_buckets_perm resolve fs0 (gatherImages fs0)
    refine ⟨?_, ?_, ?_, ?_, ?_⟩
    · show applySeq (renPairs (taskEvs name bd true resolve oks fs0 log0)) fs0 = fs0
      unfold taskEvs
      rw [r1]
      rfl
    · show appendLines (logCreate log0 true) (renLines ts (taskEvs name bd true resolve oks fs0 log0)) = log0
      unfold taskEvs
      rw [r2 ts, logCreate_dry, appendLines_nil]
    · show renPairs (taskEvs name bd true resolve oks fs0 log0) = []
      unfold taskEvs
      exact r1
    · show (taskEvs name bd true resolve oks fs0 log0).length = _
      unfold taskEvs
      rw [r3, hperm.length_eq]
    · show ∀ e ∈ taskEvs name bd true resolve oks fs0 log0, isPlanned e = true
      unfold taskEvs
      exact r4 (fun i hi => hskip i (hperm.mem_iff.mp hi))

/-- C2: with the confirmation given (or `force`), `undo_renames` on a log with
a header line and parseable entries processes the entries in reverse
(most-recent-first) order, reverting each exactly when the new-name path
exists and the old-name path does not (`undoFoldOks`); a failed revert
(oracle `false`) does not abort the remaining replay, and the log file is
deleted regardless of per-entry failures. -/
theorem undo_renames_replay (fs : Fs) (hdr : String) (entries : List String)
    (force : Bool) (resp : String) (uoks : Nat → Bool) (P : List (String × String))
    (hconf : force = true ∨ lowerStr resp = "y")
    (hparse : parsePairs entries.reverse = some P) :
    undo_renames fs (some (hdr :: entries)) force resp uoks =
      ((undoFoldOks uoks P fs 0).1, none) := by
  unfold undo_renames
  have hcond : (!force && decide (lowerStr resp ≠ "y")) = false := by
    rcases hconf with h | h <;> simp [h]
  simp only [hcond, Bool.false_eq_true, if_false, List.drop_succ_cons, List.drop_zero]
  rw [replay_eq_undoFold uoks entries.reverse P fs 0 hparse]

theorem decChar_ne_comma (d : Nat) : decChar d ≠ ',' := by
  unfold decChar
  split <;> decide

theorem comma_not_renderAux : ∀ fuel n, ',' ∉ renderAux fuel n := by
  intro fuel
  induction fuel with
  | zero => intro n; simp [renderAux]
  | succ f ih =>
    intro n
    by_cases h0 : n = 0
    · simp [renderAux, h0]
    · simp only [renderAux, h0, if_false]
      intro hm
      rcases List.mem_append.mp hm with hm | hm
      · exact ih _ hm
      · exact decChar_ne_comma _ (List.mem_singleton.mp hm).symm

theorem comma_not_padLeft (w : Nat) (cs : List Char) (h : ',' ∉ cs) :
    ',' ∉ padLeft w cs := by
  intro hm
  rcases List.mem_append.mp hm with hm | hm
  · have := List.eq_of_mem_replicate hm
    cases this
  · exact h hm

theorem comma_not_pad3N (t : Nat) : ',' ∉ (pad3N t).data :=
  comma_not_padLeft 3 _ (comma_not_renderAux t t)

theorem comma_not_pad2N (t : Nat) : ',' ∉ (pad2N t).data :=
  comma_not_padLeft 2 _ (comma_not_renderAux t t)

theorem comma_not_pad4N (t : Nat) : ',' ∉ (pad4N t).data :=
  comma_not_padLeft 4 _ (comma_not_renderAux t t)

theorem comma_not_pad2I (n : Int) : ',' ∉ (pad2I n).data := by
  unfold pad2I
  split
  · intro hm
    rcases List.mem_cons.mp hm with hm | hm
    · cases hm
    · exact comma_not_padLeft 1 _ (comma_not_renderAux _ _) hm
  · exact comma_not_pad2N _

theorem comma_not_append (s t : String) (hs : ',' ∉ s.data) (ht : ',' ∉ t.data) :
    ',' ∉ (s ++ t).data := by
  rw [String.data_append]
  intro hm
  rcases List.mem_append.mp hm with hm | hm
  · exact hs hm
  · exact ht hm

theorem comma_not_age (b p : Date) : ',' ∉ (calculate_age_full b p).data := by
  unfold calculate_age_full
  dsimp only
  repeat' split
  all_goals first
    | decide
    | exact comma_not_append _ _ (comma_not_pad2I _) (by decide)

theorem comma_not_underscore (nm : String) (h : ',' ∉ nm.data) :
    ',' ∉ (underscoreName nm).data := by
  intro hm
  rcases List.mem_map.mp hm with ⟨x, hx, he⟩
  by_cases hsp : x = ' '
  · simp [hsp] at he
  · simp only [if_neg hsp] at he
    exact h (he ▸ hx)

theorem lowerCh_comma {c : Char} (h : lowerCh c = ',') : c = ',' := by
  unfold lowerCh at h
  split at h <;> first | exact absurd h (by decide) | exact h

theorem comma_not_lowerStr (s : String) (h : ',' ∉ s.data) :
    ',' ∉ (lowerStr s).data := by
  intro hm
  rcases List.mem_map.mp hm with ⟨x, hx, he⟩
  exact h (lowerCh_comma he ▸ hx)

theorem comma_not_pySuffix (s : String) (h : ',' ∉ s.data) :
    ',' ∉ (pySuffix s).data := by
  unfold pySuffix
  split
  · simp
  · split
    · intro hm
      exact h (List.mem_of_mem_drop hm)
    · simp

theorem comma_not_fmtYYYYMMDD (d : Date) : ',' ∉ (fmtYYYYMMDD d).data :=
  comma_not_append _ _
    (comma_not_append _ _ (comma_not_pad4N _) (comma_not_pad2N _))
    (comma_not_pad2N _)

theorem comma_not_schemePre (nm dateStr age : String) (h1 : ',' ∉ nm.data)
    (h2 : ',' ∉ dateStr.data) (h3 : ',' ∉ age.data) :
    ',' ∉ (schemePre nm dateStr age).data := by
  unfold schemePre
  refine comma_not_append _ _ ?_ (by decide)
  refine comma_not_append _ _ ?_ h3
  refine comma_not_append _ _ ?_ (by decide)
  refine comma_not_append _ _ ?_ h2
  exact comma_not_append _ _ (comma_not_underscore nm h1) (by decide)

theorem comma_not_mkCand (pre ext : String) (t : Nat) (hpre : ',' ∉ pre.data)
    (hext : ',' ∉ ext.data) : ',' ∉ (mkCand pre t ext).data := by
  unfold mkCand
  exact comma_not_append _ _ (comma_not_append _ _ hpre (comma_not_pad3N t)) hext

theorem allocOut_renamed_shape (name : String) (bd dt : Date) (dryRun : Bool)
    (already : List String) (oks : Nat → Bool) :
    ∀ (imgs : List String) (fs : Fs) (k0 counter : Nat) (o n : String) (t k : Nat),
      Ev.renamed o n t k ∈ allocOut name bd dt dryRun already oks imgs fs k0 counter →
      o ∈ imgs ∧ n = mkCand (schemePre name (fmtYYYYMMDD dt) (calculate_age_full bd dt))
        t (lowerStr (pySuffix o)) := by
  intro imgs
  induction imgs with
  | nil => intro fs k0 counter o n t k hm; simp [allocOut] at hm
  | cons img rest ih =>
    intro fs k0 counter o n t k hm
    simp only [allocOut] at hm
    by_cases hc : already.contains img = true
    · rw [if_pos hc] at hm
      rcases List.mem_cons.mp hm with he | hm2
      · cases he
      · obtain ⟨h1, h2⟩ := ih fs k0 counter o n t k hm2
        exact ⟨List.mem_cons_of_mem _ h1, h2⟩
    · rw [if_neg hc] at hm
      split at hm
      · rcases List.mem_cons.mp hm with he | hm2
        · cases he
        · obtain ⟨h1, h2⟩ := ih fs k0 (counter + 1) o n t k hm2
          exact ⟨List.mem_cons_of_mem _ h1, h2⟩
      · split at hm
        · rcases List.mem_cons.mp hm with he | hm2
          · injection he with ho hn ht hk
            subst ho
            subst ht
            exact ⟨List.mem_cons_self _ _, hn⟩
          · obtain ⟨h1, h2⟩ := ih _ (k0 + 1) (counter + 1) o n t k hm2
            exact ⟨List.mem_cons_of_mem _ h1, h2⟩
        · rcases List.mem_cons.mp hm with he | hm2
          · cases he
          · obtain ⟨h1, h2⟩ := ih fs (k0 + 1) (counter + 1) o n t k hm2
            exact ⟨List.mem_cons_of_mem _ h1, h2⟩

theorem runBuckets_renamed_shape (name : String) (bd : Date) (dryRun : Bool)
    (already : List String) (oks : Nat → Bool) (bf : Date → List String) :
    ∀ (dts : List Date) (fs : Fs) (k0 : Nat) (o n : String) (t k : Nat),
      Ev.renamed o n t k ∈ runBuckets name bd dryRun already oks bf dts fs k0 →
      ∃ dt ∈ dts, o ∈ bf dt ∧
        n = mkCand (schemePre name (fmtYYYYMMDD dt) (calculate_age_full bd dt))
          t (lowerStr (pySuffix o)) := by
  intro dts
  induction dts with
  | nil => intro fs k0 o n t k hm; simp [runBuckets] at hm
  | cons dt dts ih =>
    intro fs k0 o n t k hm
    rcases List.mem_append.mp hm with hm2 | hm2
    · obtain ⟨h1, h2⟩ := allocOut_renamed_shape name bd dt dryRun already oks
        (bf dt) fs k0 1 o n t k hm2
      exact ⟨dt, List.mem_cons_self _ _, h1, h2⟩
    · obtain ⟨dt2, hdt2, h1, h2⟩ := ih _ _ o n t k hm2
      exact ⟨dt2, List.mem_cons_of_mem _ hdt2, h1, h2⟩

theorem splitChar_not_mem (cs : List Char) (h : ',' ∉ cs) :
    splitChar ',' cs = [cs] := by
  induction cs with
  | nil => rfl
  | cons c cs2 ih =>
    have hc : c ≠ ',' := fun he => h (he ▸ List.mem_cons_self _ _)
    simp only [splitChar]
    rw [if_neg hc, ih (fun hm => h (List.mem_cons_of_mem _ hm))]

theorem splitChar_comma_append (a rest : List Char) (h : ',' ∉ a) :
    splitChar ',' (a ++ ',' :: rest) = a :: splitChar ',' rest := by
  induction a with
  | nil => simp [splitChar]
  | cons c cs ih =>
    have hc : c ≠ ',' := fun he => h (he ▸ List.mem_cons_self _ _)
    rw [List.cons_append]
    simp only [splitChar]
    rw [if_neg hc, ih (fun hm => h (List.mem_cons_of_mem _ hm))]

theorem splitComma_mkLogLine (tsv old nw : String) (ht : ',' ∉ tsv.data)
    (ho : ',' ∉ old.data) (hn : ',' ∉ nw.data) :
    splitComma (mkLogLine tsv old nw) = [tsv, old, nw] := by
  have hd : (mkLogLine tsv old nw).data
      = tsv.data ++ ',' :: (old.data ++ ',' :: nw.data) := by
    simp [mkLogLine, String.data_append]
  unfold splitComma
  rw [hd, splitChar_comma_append _ _ ht, splitChar_comma_append _ _ ho,
    splitChar_not_mem _ hn]
  rfl

/-- C9 (amended): provided the subject name, the original filenames and the
timestamps contain no comma, every line the task appends has exactly two
commas — the scheme-built new name is then comma-free — and both the naive
comma split and `split(',', 2)` recover exactly the written
`(timestamp, old, new)` triple. -/
theorem log_line_split_safe (name birth : String) (dryRun : Bool)
    (resolve : Nat → Date) (ts : Nat → String) (oks : Nat → Bool)
    (fs0 : Fs) (log0 : Option (List String)) (bd : Date)
    (hp : parseBirth birth = some bd)
    (hname : ',' ∉ name.data)
    (hts : ∀ j, ',' ∉ (ts j).data)
    (hnames : ∀ nm ∈ fs0.names, ',' ∉ nm.data) :
    ∀ o n t k, Ev.renamed o n t k ∈
        (processTask name birth dryRun resolve ts oks fs0 log0).2.evs →
      splitComma (mkLogLine (ts k) o n) = [ts k, o, n] ∧
      split2 (mkLogLine (ts k) o n) = some (ts k, o, n) := by
  intro o n t k hm
  by_cases hne : gatherImages fs0 = []
  · rw [processTask_error name birth dryRun resolve ts oks fs0 log0 (Or.inr hne)] at hm
    exact absurd hm (by simp)
  · rw [processTask_eq name birth dryRun resolve ts oks fs0 log0 bd hp hne] at hm
    obtain ⟨dt, _, hobf, hn⟩ := runBuckets_renamed_shape name bd dryRun
      (alreadyRenamed log0) oks (bucketFiles resolve fs0 (gatherImages fs0))
      (bucketDates resolve fs0 (gatherImages fs0)) fs0 0 o n t k hm
    have homem : o ∈ fs0.names := by
      refine gatherImages_subset fs0 o ?_
      exact (List.mem_filter.mp hobf).1
    have ho : ',' ∉ o.data := hnames o homem
    have hnc : ',' ∉ n.data := by
      rw [hn]
      exact comma_not_mkCand _ _ t
        (comma_not_schemePre _ _ _ hname (comma_not_fmtYYYYMMDD dt)
          (comma_not_age bd dt))
        (comma_not_lowerStr _ (comma_not_pySuffix o ho))
    exact ⟨splitComma_mkLogLine (ts k) o n (hts k) ho hnc,
      split2_mkLogLine (ts k) o n (hts k) ho⟩

/-- C10: on a birth date that `strptime("%m-%d-%Y")` rejects, or a path with
no eligible images, `process_task` returns `False` having performed no rename,
created no log file and written nothing to an existing log — the directory
and log are returned unchanged. -/
theorem processTask_input_error_frame (name birth : String) (dryRun : Bool)
    (resolve : Nat → Date) (ts : Nat → String) (oks : Nat → Bool)
    (fs0 : Fs) (log0 : Option (List String))
    (h : parseBirth birth = none ∨ gatherImages fs0 = []) :
    processTask name birth dryRun resolve ts oks fs0 log0 =
      (false, ⟨fs0, log0, [], 0⟩) :=
  processTask_error name birth dryRun resolve ts oks fs0 log0 h

theorem undo_renames_replay_witness :
    ((true : Bool) = true ∨ lowerStr "" = "y") ∧
    parsePairs ["T0,a.jpg,b.jpg"].reverse = some [("a.jpg", "b.jpg")] ∧
    undo_renames ⟨[("b.jpg", 0)]⟩ (some [logHeader, "T0,a.jpg,b.jpg"]) true "" okAll =
      ((undoFoldOks okAll [("a.jpg", "b.jpg")] ⟨[("b.jpg", 0)]⟩ 0).1, none) :=
  ⟨Or.inl rfl, by decide,
    undo_renames_replay ⟨[("b.jpg", 0)]⟩ logHeader ["T0,a.jpg,b.jpg"] true "" okAll
      [("a.jpg", "b.jpg")] (Or.inl rfl) (by decide)⟩

theorem processTask_undo_inverse_witness :
    undo_renames
        (processTask "N" "01-01-2023" false resMar tsC okAll ⟨[("a.jpg", 0)]⟩ none).2.fs
        (processTask "N" "01-01-2023" false resMar tsC okAll ⟨[("a.jpg", 0)]⟩ none).2.log
        true "" okAll =
      (⟨[("a.jpg", 0)]⟩, none) :=
  processTask_undo_inverse "N" "01-01-2023" resMar tsC okAll okAll ⟨[("a.jpg", 0)]⟩ ""
    (by decide) (fun _ => rfl) (fun _ => rfl)
    (fun _ => show ',' ∉ ("T0" : String).data by decide) (by decide)

theorem bucketLoop_news_nodup_witness :
    (newsOf (bucketLoop "N" ⟨2023, 1, 1⟩ ⟨2023, 3, 1⟩ false [] tsT okAll
      ["a.jpg", "b.jpg"]
      ⟨⟨[("a.jpg", 0), ("b.jpg", 1)]⟩, some [logHeader], [], 0⟩ 1).1.evs).Nodup :=
  bucketLoop_news_nodup "N" ⟨2023, 1, 1⟩ ⟨2023, 3, 1⟩ [] tsT okAll ["a.jpg", "b.jpg"]
    ⟨[("a.jpg", 0), ("b.jpg", 1)]⟩ (some [logHeader]) 0 1
    (fun _ => rfl) (by decide) (by decide) (by decide)

theorem processTask_skip_iff_witness :
    parseBirth "01-01-2023" = some ⟨2023, 1, 1⟩ ∧
    ("a.jpg" ∈ skipsOf (processTask "N" "01-01-2023" false resMar tsT okAll
        ⟨[("a.jpg", 0)]⟩ (some [logHeader, "t0,a.jpg,x.png"])).2.evs ↔
      ("a.jpg" ∈ gatherImages ⟨[("a.jpg", 0)]⟩ ∧
        (alreadyRenamed (some [logHeader, "t0,a.jpg,x.png"])).contains "a.jpg" = true)) :=
  ⟨by decide, processTask_skip_iff "N" "01-01-2023" false resMar tsT okAll
    ⟨[("a.jpg", 0)]⟩ (some [logHeader, "t0,a.jpg,x.png"]) ⟨2023, 1, 1⟩ "a.jpg" (by decide)⟩

theorem processTask_log_after_rename_witness :
    parseBirth "01-01-2023" = some ⟨2023, 1, 1⟩ ∧
    gatherImages ⟨[("a.jpg", 0), ("b.jpg", 1)]⟩ ≠ [] ∧
    ((processTask "N" "01-01-2023" false resMar tsT okNot0
        ⟨[("a.jpg", 0), ("b.jpg", 1)]⟩ none).2.log =
      appendLines (logCreate none false)
        (renLines tsT (processTask "N" "01-01-2023" false resMar tsT okNot0
          ⟨[("a.jpg", 0), ("b.jpg", 1)]⟩ none).2.evs) ∧
    (processTask "N" "01-01-2023" false resMar tsT okNot0
        ⟨[("a.jpg", 0), ("b.jpg", 1)]⟩ none).2.fs =
      applySeq (renPairs (processTask "N" "01-01-2023" false resMar tsT okNot0
        ⟨[("a.jpg", 0), ("b.jpg", 1)]⟩ none).2.evs) ⟨[("a.jpg", 0), ("b.jpg", 1)]⟩) :=
  ⟨by decide, by decide,
    processTask_log_after_rename "N" "01-01-2023" false resMar tsT okNot0
      ⟨[("a.jpg", 0), ("b.jpg", 1)]⟩ none ⟨2023, 1, 1⟩ (by decide) (by decide)⟩

theorem processTask_dry_frame_witness :
    parseBirth "01-01-2023" = some ⟨2023, 1, 1⟩ ∧
    (∀ n ∈ gatherImages ⟨[("a.jpg", 0), ("b.jpg", 1)]⟩,
      (alreadyRenamed none).contains n = false) ∧
    ((processTask "N" "01-01-2023" true resMar tsT okAll
        ⟨[("a.jpg", 0), ("b.jpg", 1)]⟩ none).2.fs = ⟨[("a.jpg", 0), ("b.jpg", 1)]⟩ ∧
    (processTask "N" "01-01-2023" true resMar tsT okAll
        ⟨[("a.jpg", 0), ("b.jpg", 1)]⟩ none).2.log = none ∧
    renPairs (processTask "N" "01-01-2023" true resMar tsT okAll
        ⟨[("a.jpg", 0), ("b.jpg", 1)]⟩ none).2.evs = [] ∧
    (processTask "N" "01-01-2023" true resMar tsT okAll
        ⟨[("a.jpg", 0), ("b.jpg", 1)]⟩ none).2.evs.length =
      (gatherImages ⟨[("a.jpg", 0), ("b.jpg", 1)]⟩).length ∧
    ∀ e ∈ (processTask "N" "01-01-2023" true resMar tsT okAll
        ⟨[("a.jpg", 0), ("b.jpg", 1)]⟩ none).2.evs, isPlanned e = true) :=
  ⟨by decide, by decide,
    processTask_dry_frame "N" "01-01-2023" resMar tsT okAll
      ⟨[("a.jpg", 0), ("b.jpg", 1)]⟩ none ⟨2023, 1, 1⟩ (by decide) (by decide)⟩

theorem log_line_split_safe_witness :
    Ev.renamed "a.jpg" "N_20230301_02months_001.jpg" 1 0 ∈
      (processTask "N" "01-01-2023" false resMar tsC okAll
        ⟨[("a.jpg", 0)]⟩ none).2.evs ∧
    (splitComma (mkLogLine (tsC 0) "a.jpg" "N_20230301_02months_001.jpg") =
      [tsC 0, "a.jpg", "N_20230301_02months_001.jpg"] ∧
    split2 (mkLogLine (tsC 0) "a.jpg" "N_20230301_02months_001.jpg") =
      some (tsC 0, "a.jpg", "N_20230301_02months_001.jpg")) :=
  ⟨by decide,
    log_line_split_safe "N" "01-01-2023" false resMar tsC okAll ⟨[("a.jpg", 0)]⟩ none
      ⟨2023, 1, 1⟩ (by decide) (by decide)
      (fun _ => show ',' ∉ ("T0" : String).data by decide) (by decide)
      "a.jpg" "N_20230301_02months_001.jpg" 1 0 (by decide)⟩

theorem processTask_input_error_frame_witness :
    (parseBirth "2023-01-01" = none ∨ gatherImages ⟨[("a.jpg", 0)]⟩ = []) ∧
    processTask "N" "2023-01-01" false resMar tsT okAll ⟨[("a.jpg", 0)]⟩ none =
      (false, ⟨⟨[("a.jpg", 0)]⟩, none, [], 0⟩) :=
  ⟨Or.inl (by decide),
    processTask_input_error_frame "N" "2023-01-01" false resMar tsT okAll
      ⟨[("a.jpg", 0)]⟩ none (Or.inl (by decide))⟩
